import Mathlib

/-!
Verification of the NodeModal editing core of jsoncrack
(src/features/modals/NodeModal/index.tsx).

The development shallowly embeds the component's pure core:

* `JsonValue` models the values produced by `JSON.parse` (numbers are
  modeled as integers; documents containing non-integer numbers are
  outside the model).  Objects are ordered association lists; property
  assignment (`objInsert`) keeps the position of an existing key and
  appends a new key, matching JavaScript object semantics.
* `printVal`/`stringifyJson` model `JSON.stringify(x, null, 2)`.
* `parseVal`/`parseJson` model `JSON.parse` (fuelled recursive descent).
* `updateJsonAtPath`, `normalizeNodeData`, `handleEdit`, `handleSave`,
  `handleCancel` are translated from the source component.  Property
  reads/writes on parsed values (`jsRead`/`jsWrite`) follow JavaScript
  strict-mode semantics restricted to JSON data properties (the
  prototype chain and exotic properties such as array `length` are not
  modeled; no claim depends on them).
-/

namespace JsonCrack

/-- JSON values as produced by `JSON.parse`.  Numbers are modeled as
integers; object fields are an ordered association list. -/
inductive JsonValue : Type where
  | null : JsonValue
  | bool : Bool → JsonValue
  | num : Int → JsonValue
  | str : String → JsonValue
  | arr : List JsonValue → JsonValue
  | obj : List (String × JsonValue) → JsonValue
deriving Inhabited

/-- Lookup of an own data property of a JavaScript object literal. -/
def objLookup (fs : List (String × JsonValue)) (k : String) : Option JsonValue :=
  match fs with
  | [] => none
  | (k', v) :: rest => if k' = k then some v else objLookup rest k

/-- JavaScript property assignment on an object: an existing key keeps
its position and gets the new value, a new key is appended. -/
def objInsert (fs : List (String × JsonValue)) (k : String) (v : JsonValue) :
    List (String × JsonValue) :=
  match fs with
  | [] => [(k, v)]
  | (k', v') :: rest => if k' = k then (k', v) :: rest else (k', v') :: objInsert rest k v

/-- JavaScript element assignment on an array: out-of-range writes
extend the array, the holes reading back as `null` after
`JSON.stringify`/`JSON.parse`. -/
def arrSet (es : List JsonValue) (n : Nat) (v : JsonValue) : List JsonValue :=
  match es, n with
  | [], 0 => [v]
  | [], Nat.succ m => JsonValue.null :: arrSet [] m v
  | _ :: rest, 0 => v :: rest
  | e :: rest, Nat.succ m => e :: arrSet rest m v

/-- Pairwise distinctness of object keys. -/
def keysDistinct : List String → Bool
  | [] => true
  | k :: ks => !(ks.contains k) && keysDistinct ks

mutual
/-- Well-formed values: every object level has pairwise distinct keys.
`JSON.parse` only produces such values (duplicated keys collapse). -/
def wfJson : JsonValue → Bool
  | .null => true
  | .bool _ => true
  | .num _ => true
  | .str _ => true
  | .arr es => wfList es
  | .obj fs => keysDistinct (fs.map Prod.fst) && wfFields fs

def wfList : List JsonValue → Bool
  | [] => true
  | e :: es => wfJson e && wfList es

def wfFields : List (String × JsonValue) → Bool
  | [] => true
  | f :: fs => wfJson f.2 && wfFields fs
end

/-! ## The printer: `JSON.stringify(x, null, 2)` -/

def natDigitChar (n : Nat) : Char := Char.ofNat (48 + n % 10)

def natToChars (n : Nat) : List Char :=
  if _h : n < 10 then [natDigitChar n]
  else natToChars (n / 10) ++ [natDigitChar (n % 10)]
decreasing_by exact Nat.div_lt_self (by omega) (by omega)

def intToChars : Int → List Char
  | .ofNat n => natToChars n
  | .negSucc m => '-' :: natToChars (m + 1)

def hexDigitChar (n : Nat) : Char :=
  if n < 10 then Char.ofNat (48 + n) else Char.ofNat (87 + n)

/-- Escaping of one character inside a JSON string literal, as done by
`JSON.stringify` (lower-case `\u00xx` for control characters). -/
def escapeChar (c : Char) : List Char :=
  if c = '"' then ['\\', '"']
  else if c = '\\' then ['\\', '\\']
  else if c = '\n' then ['\\', 'n']
  else if c = '\r' then ['\\', 'r']
  else if c = '\t' then ['\\', 't']
  else if c = Char.ofNat 8 then ['\\', 'b']
  else if c = Char.ofNat 12 then ['\\', 'f']
  else if c.toNat < 32 then
    ['\\', 'u', '0', '0', hexDigitChar (c.toNat / 16), hexDigitChar (c.toNat % 16)]
  else [c]

def escapeChars : List Char → List Char
  | [] => []
  | c :: cs => escapeChar c ++ escapeChars cs

def quoteChars (s : String) : List Char := '"' :: (escapeChars s.data ++ ['"'])

def lbrace : Char := Char.ofNat 123
def rbrace : Char := Char.ofNat 125

mutual
/-- `JSON.stringify(v, null, 2)` at indentation level `ind`, as a
character list. -/
def printVal (ind : Nat) : JsonValue → List Char
  | .null => ['n', '\x75', 'l', '\x6c']
  | .bool true => ['t', '\x72', 'u', '\x65']
  | .bool false => ['f', '\x61', 'l', '\x73', 'e']
  | .num n => intToChars n
  | .str s => quoteChars s
  | .arr [] => ['[', ']']
  | .arr (e :: es) =>
      '[' :: '\n' :: (List.replicate (ind + 2) ' ' ++ printVal (ind + 2) e ++
        printItems (ind + 2) es ++ '\n' :: (List.replicate ind ' ' ++ [']']))
  | .obj [] => [lbrace, rbrace]
  | .obj (f :: fs) =>
      lbrace :: '\n' :: (List.replicate (ind + 2) ' ' ++ printField (ind + 2) f ++
        printFields (ind + 2) fs ++ '\n' :: (List.replicate ind ' ' ++ [rbrace]))

def printField (ind : Nat) (f : String × JsonValue) : List Char :=
  quoteChars f.1 ++ ':' :: ' ' :: printVal ind f.2

def printItems (ind : Nat) : List JsonValue → List Char
  | [] => []
  | e :: es => ',' :: '\n' :: (List.replicate ind ' ' ++ printVal ind e ++ printItems ind es)

def printFields (ind : Nat) : List (String × JsonValue) → List Char
  | [] => []
  | f :: fs => ',' :: '\n' :: (List.replicate ind ' ' ++ printField ind f ++ printFields ind fs)
end

/-- `JSON.stringify(v, null, 2)`. -/
def stringifyJson (v : JsonValue) : String := String.mk (printVal 0 v)

/-! ## The parser: `JSON.parse` -/

def isWsChar (c : Char) : Bool := c = ' ' || c = '\n' || c = '\t' || c = '\r'

def skipWs : List Char → List Char
  | [] => []
  | c :: cs => if isWsChar c then skipWs cs else c :: cs

def isDigitChar (c : Char) : Bool := 48 ≤ c.toNat && c.toNat ≤ 57

def natFromDigits (ds : List Char) : Nat :=
  ds.foldl (fun a c => 10 * a + (c.toNat - 48)) 0

def hexVal (c : Char) : Option Nat :=
  if 48 ≤ c.toNat ∧ c.toNat ≤ 57 then some (c.toNat - 48)
  else if 97 ≤ c.toNat ∧ c.toNat ≤ 102 then some (c.toNat - 87)
  else if 65 ≤ c.toNat ∧ c.toNat ≤ 70 then some (c.toNat - 55)
  else none

/-- Body of a JSON string literal (after the opening quote), with the
usual escape sequences. -/
def parseStrGo (acc : List Char) : List Char → Option (String × List Char)
  | [] => none
  | c :: cs =>
    if c = '"' then some (String.mk acc.reverse, cs)
    else if c = '\\' then
      match cs with
      | [] => none
      | e :: cs' =>
        if e = '"' then parseStrGo ('"' :: acc) cs'
        else if e = '\\' then parseStrGo ('\\' :: acc) cs'
        else if e = '/' then parseStrGo ('/' :: acc) cs'
        else if e = 'b' then parseStrGo (Char.ofNat 8 :: acc) cs'
        else if e = 'f' then parseStrGo (Char.ofNat 12 :: acc) cs'
        else if e = 'n' then parseStrGo ('\n' :: acc) cs'
        else if e = 'r' then parseStrGo ('\r' :: acc) cs'
        else if e = 't' then parseStrGo ('\t' :: acc) cs'
        else if e = 'u' then
          match cs' with
          | h1 :: h2 :: h3 :: h4 :: cs2 =>
            match hexVal h1, hexVal h2, hexVal h3, hexVal h4 with
            | some a, some b, some c3, some d =>
              parseStrGo (Char.ofNat (4096 * a + 256 * b + 16 * c3 + d) :: acc) cs2
            | _, _, _, _ => none
          | _ => none
        else none
    else parseStrGo (c :: acc) cs

/-- Longest digit run at the head. -/
def spanDigits : List Char → List Char × List Char
  | [] => ([], [])
  | c :: cs =>
    if isDigitChar c then
      let p := spanDigits cs
      (c :: p.1, p.2)
    else ([], c :: cs)

mutual
/-- Fuelled recursive-descent parser for one JSON value; returns the
value and the unconsumed remainder.  Numbers are restricted to
(optionally negated) digit runs, so documents with fractional or
exponent-form numbers fall outside the model. -/
def parseVal : Nat → List Char → Option (JsonValue × List Char)
  | 0, _ => none
  | Nat.succ fuel, l =>
    match skipWs l with
    | [] => none
    | c :: cs =>
      if c = 'n' then
        match cs with
        | 'u' :: 'l' :: 'l' :: rest => some (.null, rest)
        | _ => none
      else if c = 't' then
        match cs with
        | 'r' :: 'u' :: 'e' :: rest => some (.bool true, rest)
        | _ => none
      else if c = 'f' then
        match cs with
        | 'a' :: 'l' :: 's' :: 'e' :: rest => some (.bool false, rest)
        | _ => none
      else if c = '"' then
        match parseStrGo [] cs with
        | some (s, rest) => some (.str s, rest)
        | none => none
      else if c = '-' then
        match spanDigits cs with
        | ([], _) => none
        | (ds, rest) => some (.num (-(natFromDigits ds : Int)), rest)
      else if isDigitChar c then
        some (.num (natFromDigits (spanDigits (c :: cs)).1), (spanDigits (c :: cs)).2)
      else if c = '[' then
        match skipWs cs with
        | [] => none
        | r :: rs => if r = ']' then some (.arr [], rs) else parseElems fuel [] cs
      else if c = lbrace then
        match skipWs cs with
        | r :: rest => if r = rbrace then some (.obj [], rest) else parseFields fuel [] cs
        | [] => none
      else none

/-- Elements of a non-empty array, accumulating from the front. -/
def parseElems : Nat → List JsonValue → List Char → Option (JsonValue × List Char)
  | 0, _, _ => none
  | Nat.succ fuel, acc, l =>
    match parseVal fuel l with
    | none => none
    | some (v, r) =>
      match skipWs r with
      | ',' :: r' => parseElems fuel (acc ++ [v]) r'
      | ']' :: r' => some (.arr (acc ++ [v]), r')
      | _ => none

/-- Fields of a non-empty object; duplicated keys collapse by property
assignment, as in JavaScript. -/
def parseFields : Nat → List (String × JsonValue) → List Char → Option (JsonValue × List Char)
  | 0, _, _ => none
  | Nat.succ fuel, acc, l =>
    match skipWs l with
    | c :: cs =>
      if c = '"' then
        match parseStrGo [] cs with
        | some (k, r1) =>
          match skipWs r1 with
          | ':' :: r2 =>
            match parseVal fuel r2 with
            | some (v, r3) =>
              match skipWs r3 with
              | ',' :: r4 => parseFields fuel (objInsert acc k v) r4
              | c2 :: r4 => if c2 = rbrace then some (.obj (objInsert acc k v), r4) else none
              | [] => none
            | none => none
          | _ => none
        | none => none
      else none
    | [] => none
end

/-- `JSON.parse`: whole-input parse, tolerating surrounding whitespace. -/
def parseJson (s : String) : Option JsonValue :=
  match parseVal (s.data.length + 1) s.data with
  | some (v, rest) => if skipWs rest = [] then some v else none
  | none => none

/-! ## Member access and `updateJsonAtPath` -/

/-- One segment of `NodeData["path"]`: an object key or an array index. -/
inductive Seg : Type where
  | key : String → Seg
  | idx : Nat → Seg

/-- Canonical decimal numeral. -/
def natStr (n : Nat) : String := String.mk (natToChars n)

/-- The property key a segment coerces to in a JavaScript member access
(numbers coerce to their decimal numeral). -/
def canonSeg : Seg → String
  | .key s => s
  | .idx n => natStr n

/-- The array index denoted by a property key: canonical decimal
numerals only (`"01"` or `"foo"` are ordinary non-index keys). -/
def canonIdx (s : String) : Option Nat :=
  let n := natFromDigits s.data
  if natStr n = s then some n else none

/-- The array index denoted by a segment. -/
def segIdx : Seg → Option Nat
  | .idx n => some n
  | .key s => canonIdx s

def arrGet (es : List JsonValue) (n : Nat) : Option JsonValue := es.get? n

/-- Strict-mode member read `current[seg]`, restricted to JSON data
properties (no prototype chain, no `length`).  `Except.error` models a
thrown `TypeError` (member of `undefined`/`null`); `Except.ok none`
models `undefined`. -/
def jsRead : Option JsonValue → Seg → Except Unit (Option JsonValue)
  | none, _ => .error ()
  | some .null, _ => .error ()
  | some (.bool _), _ => .ok none
  | some (.num _), _ => .ok none
  | some (.str s), seg =>
      .ok (match segIdx seg with
           | some n => (s.data.get? n).map (fun c => JsonValue.str (String.mk [c]))
           | none => none)
  | some (.arr es), seg =>
      .ok (match segIdx seg with
           | some n => arrGet es n
           | none => none)
  | some (.obj fs), seg => .ok (objLookup fs (canonSeg seg))

/-- Strict-mode member write `current[seg] = v`, restricted to JSON
data properties.  Writes on `undefined`, `null` and primitives throw;
a non-index key on an array becomes an expando property that
`JSON.stringify` ignores, so the array is returned unchanged. -/
def jsWrite : Option JsonValue → Seg → JsonValue → Except Unit JsonValue
  | none, _, _ => .error ()
  | some .null, _, _ => .error ()
  | some (.bool _), _, _ => .error ()
  | some (.num _), _, _ => .error ()
  | some (.str _), _, _ => .error ()
  | some (.arr es), seg, v =>
      .ok (match segIdx seg with
           | some n => .arr (arrSet es n v)
           | none => .arr es)
  | some (.obj fs), seg, v => .ok (.obj (objInsert fs (canonSeg seg) v))

/-- The walk-and-assign loop of `updateJsonAtPath` in functional form:
navigate all but the last segment by member reads, assign at the last.
In-place mutation becomes a write-back along the spine (the recursion
only succeeds when the read child is a container, where the two
coincide). -/
def setAt : Option JsonValue → List Seg → JsonValue → Except Unit JsonValue
  | cur, [s], nv => jsWrite cur s nv
  | cur, s :: rest, nv => do
      let child ← jsRead cur s
      let child' ← setAt child rest nv
      jsWrite cur s child'
  | _, [], _ => .error ()

/-- Path resolution by repeated member reads (`undefined` and a thrown
access both yield `none`). -/
def resolveP : Option JsonValue → List Seg → Option JsonValue
  | cur, [] => cur
  | cur, s :: rest =>
      match jsRead cur s with
      | .ok child => resolveP child rest
      | .error _ => none

/-- The body of `updateJsonAtPath`'s `try` block; `Except.error` is an
exception reaching the `catch`. -/
def tryUpdate (json : String) (path : Option (List Seg)) (newValue : JsonValue) :
    Except Unit String :=
  match parseJson json with
  | none => .error ()
  | some obj =>
    match path with
    | none => .ok (stringifyJson newValue)
    | some [] => .ok (stringifyJson newValue)
    | some p => do
        let updated ← setAt (some obj) p newValue
        .ok (stringifyJson updated)

/-- `updateJsonAtPath` from the source: the `catch` returns the input
string unchanged. -/
def updateJsonAtPath (json : String) (path : Option (List Seg)) (newValue : JsonValue) :
    String :=
  match tryUpdate json path newValue with
  | .ok t => t
  | .error _ => json

/-! ## The NodeModal session -/

/-- The type tag of a row (spec §3: `scalar`, `array`, `object`). -/
inductive RowType : Type where
  | scalar : RowType
  | array : RowType
  | object : RowType
deriving DecidableEq

/-- One row of a node (`NodeData["text"]`). -/
structure Row : Type where
  key : Option String
  value : JsonValue
  type : RowType

/-- Truthiness of `row.key`: absent or empty string is falsy. -/
def truthyKey : Option String → Bool
  | none => false
  | some s => !s.isEmpty

structure NodeData : Type where
  id : String
  path : Option (List Seg)
  text : List Row

/-- The `useGraph` store fields the modal touches. -/
structure GraphState : Type where
  nodes : List NodeData
  selectedNode : Option NodeData

/-- All state touched by the modal: the `useJson` document store, the
`useGraph` store, and the local edit session. -/
structure AppState : Type where
  json : String
  graph : GraphState
  isEditing : Bool
  editedContent : String

mutual
/-- JavaScript `String(v)` as used by the template literal in
`normalizeNodeData` (arrays join with commas, objects print
`[object Object]`). -/
def jsToString : JsonValue → String
  | .null => "null"
  | .bool true => "true"
  | .bool false => "false"
  | .num n => String.mk (intToChars n)
  | .str s => s
  | .arr es => joinElems es
  | .obj _ => "[object Object]"

def joinElems : List JsonValue → String
  | [] => ""
  | [e] => joinElem e
  | e :: e2 :: es => joinElem e ++ "," ++ joinElems (e2 :: es)

/-- An element inside `Array.prototype.join`: `null` renders empty. -/
def joinElem : JsonValue → String
  | .null => ""
  | .bool true => "true"
  | .bool false => "false"
  | .num n => String.mk (intToChars n)
  | .str s => s
  | .arr es => joinElems es
  | .obj _ => "[object Object]"
end

/-- The callback of `normalizeNodeData`'s `forEach`: rows of type
`array`/`object` are skipped, and only truthy keys are assigned. -/
def buildStep (acc : List (String × JsonValue)) (r : Row) : List (String × JsonValue) :=
  match r.type with
  | .array => acc
  | .object => acc
  | .scalar =>
      match r.key with
      | some k => if k.isEmpty then acc else objInsert acc k r.value
      | none => acc

/-- The object accumulated by `normalizeNodeData`'s `forEach`. -/
def buildObj (rows : List Row) : List (String × JsonValue) :=
  rows.foldl buildStep []

/-- `normalizeNodeData` from the source. -/
def normalizeNodeData (nodeRows : Option (List Row)) : String :=
  match nodeRows with
  | none => String.mk [lbrace, rbrace]
  | some [] => String.mk [lbrace, rbrace]
  | some [r0] =>
      if truthyKey r0.key then stringifyJson (.obj (buildObj [r0]))
      else jsToString r0.value
  | some rows => stringifyJson (.obj (buildObj rows))

/-- One row of the merge-back in `handleSave`:
`value: row.key && parsedContent[row.key] !== undefined ? parsedContent[row.key] : row.value`.
The member access can throw (when `parsedContent` is `null`). -/
def mergeRow (parsedContent : JsonValue) (row : Row) : Except Unit Row :=
  match row.key with
  | none => .ok row
  | some k =>
    if k.isEmpty then .ok row
    else do
      let m ← jsRead (some parsedContent) (.key k)
      .ok { row with value := m.getD row.value }

/-- The merge-back `nodeData.text.map(row => ...)` of `handleSave`:
left to right, aborting on the first thrown access. -/
def mergeText (parsedContent : JsonValue) : List Row → Except Unit (List Row)
  | [] => .ok []
  | row :: rest => do
      let row' ← mergeRow parsedContent row
      let rest' ← mergeText parsedContent rest
      .ok (row' :: rest')

/-- `handleEdit`: seeds the draft and enters editing.  The source does
not guard on a selected node; with none selected it seeds
`normalizeNodeData([])`. -/
def handleEdit (st : AppState) : AppState :=
  { st with
    editedContent := normalizeNodeData (some (((st.graph.selectedNode).map NodeData.text).getD [])),
    isEditing := true }

/-- `handleCancel` from the source. -/
def handleCancel (st : AppState) : AppState :=
  { st with isEditing := false, editedContent := "" }

/-- `handleSave` from the source.  The whole body is a `try`: a parse
failure leaves the state unchanged (the source only `console.error`s);
a throw during the merge-back happens after `setJson`, so the document
store is updated while the graph store and the editing flag are not. -/
def handleSave (st : AppState) : AppState :=
  match st.graph.selectedNode with
  | none => st
  | some nodeData =>
    match parseJson st.editedContent with
    | none => st
    | some parsedContent =>
      let updatedJson := updateJsonAtPath st.json nodeData.path parsedContent
      match mergeText parsedContent nodeData.text with
      | .error _ => { st with json := updatedJson }
      | .ok mergedText =>
        { st with
          json := updatedJson,
          graph :=
            { nodes := st.graph.nodes.map (fun node =>
                if node.id = nodeData.id then { node with text := mergedText } else node),
              selectedNode := some { nodeData with text := mergedText } },
          isEditing := false }

/-! ## Association-list, array and well-formedness lemmas -/

theorem objLookup_objInsert_self (fs : List (String × JsonValue)) (k : String) (v : JsonValue) :
    objLookup (objInsert fs k v) k = some v := by
  induction fs with
  | nil => simp [objInsert, objLookup]
  | cons f rest ih =>
    obtain ⟨k', v'⟩ := f
    by_cases h : k' = k
    · subst h; simp [objInsert, objLookup]
    · simp [objInsert, objLookup, h, ih]

theorem objLookup_objInsert_ne (fs : List (String × JsonValue)) (k k' : String) (v : JsonValue)
    (h : k ≠ k') : objLookup (objInsert fs k v) k' = objLookup fs k' := by
  induction fs with
  | nil => simp [objInsert, objLookup, h]
  | cons f rest ih =>
    obtain ⟨k0, v0⟩ := f
    by_cases h0 : k0 = k
    · subst h0; simp [objInsert, objLookup, h]
    · simp [objInsert, objLookup, h0, ih]

theorem objInsert_of_not_mem (fs : List (String × JsonValue)) (k : String) (v : JsonValue)
    (h : k ∉ fs.map Prod.fst) : objInsert fs k v = fs ++ [(k, v)] := by
  induction fs with
  | nil => simp [objInsert]
  | cons f rest ih =>
    obtain ⟨k0, v0⟩ := f
    simp only [List.map_cons, List.mem_cons] at h
    push_neg at h
    have hk : k0 ≠ k := fun e => h.1 e.symm
    simp [objInsert, hk, ih h.2]

theorem objInsert_map_fst (fs : List (String × JsonValue)) (k : String) (v : JsonValue) :
    (objInsert fs k v).map Prod.fst =
      if k ∈ fs.map Prod.fst then fs.map Prod.fst else fs.map Prod.fst ++ [k] := by
  induction fs with
  | nil => simp [objInsert]
  | cons f rest ih =>
    obtain ⟨k0, v0⟩ := f
    by_cases h0 : k0 = k
    · subst h0; simp [objInsert]
    · simp only [objInsert, if_neg h0, List.map_cons, ih, List.mem_cons]
      have hk : ¬ k = k0 := fun e => h0 e.symm
      by_cases hm : k ∈ rest.map Prod.fst
      · simp [hm, hk]
      · simp [hm, hk]

theorem contains_eq_false_iff (ks : List String) (k : String) :
    ks.contains k = false ↔ k ∉ ks := by
  induction ks with
  | nil => simp
  | cons a as ih => simp [List.contains_cons, ih, or_iff_not_and_not]

theorem keysDistinct_iff (ks : List String) : keysDistinct ks = true ↔ ks.Nodup := by
  induction ks with
  | nil => simp [keysDistinct]
  | cons a as ih =>
    simp only [keysDistinct, Bool.and_eq_true, Bool.not_eq_true', ih,
      contains_eq_false_iff, List.nodup_cons]

theorem keysDistinct_objInsert (fs : List (String × JsonValue)) (k : String) (v : JsonValue)
    (h : keysDistinct (fs.map Prod.fst) = true) :
    keysDistinct ((objInsert fs k v).map Prod.fst) = true := by
  rw [keysDistinct_iff] at h ⊢
  rw [objInsert_map_fst]
  by_cases hm : k ∈ fs.map Prod.fst
  · simpa [hm]
  · simpa [hm, List.nodup_append] using h

theorem wfFields_objInsert (fs : List (String × JsonValue)) (k : String) (v : JsonValue)
    (hfs : wfFields fs = true) (hv : wfJson v = true) :
    wfFields (objInsert fs k v) = true := by
  induction fs with
  | nil => simp [objInsert, wfFields, hv]
  | cons f rest ih =>
    obtain ⟨k0, v0⟩ := f
    simp only [wfFields, Bool.and_eq_true] at hfs
    by_cases h0 : k0 = k
    · subst h0; simp [objInsert, wfFields, hv, hfs.2]
    · simp [objInsert, wfFields, h0, hfs.1, ih hfs.2]

theorem wfFields_lookup (fs : List (String × JsonValue)) (k : String) (v : JsonValue)
    (hfs : wfFields fs = true) (h : objLookup fs k = some v) : wfJson v = true := by
  induction fs with
  | nil => simp [objLookup] at h
  | cons f rest ih =>
    obtain ⟨k0, v0⟩ := f
    simp only [wfFields, Bool.and_eq_true] at hfs
    by_cases h0 : k0 = k
    · subst h0
      rw [objLookup, if_pos rfl] at h
      cases h
      exact hfs.1
    · simp only [objLookup, if_neg h0] at h
      exact ih hfs.2 h

theorem arrSet_get_self (es : List JsonValue) (n : Nat) (v : JsonValue) :
    (arrSet es n v).get? n = some v := by
  induction es generalizing n with
  | nil =>
    induction n with
    | zero => simp [arrSet]
    | succ m ihm => simpa [arrSet] using ihm
  | cons e rest ih =>
    cases n with
    | zero => simp [arrSet]
    | succ m => simpa [arrSet] using ih m

theorem arrSet_get_ne (es : List JsonValue) (n m : Nat) (v : JsonValue) (h : m ≠ n)
    (hm : m < es.length) : (arrSet es n v).get? m = es.get? m := by
  induction es generalizing n m with
  | nil => simp at hm
  | cons e rest ih =>
    cases n with
    | zero => cases m with
      | zero => exact absurd rfl h
      | succ m' => simp [arrSet]
    | succ n' =>
      cases m with
      | zero => simp [arrSet]
      | succ m' =>
        simp only [List.length_cons, Nat.succ_lt_succ_iff] at hm
        simpa [arrSet] using ih n' m' (fun e => h (by simp [e])) hm

theorem arrSet_length_of_lt (es : List JsonValue) (n : Nat) (v : JsonValue)
    (h : n < es.length) : (arrSet es n v).length = es.length := by
  induction es generalizing n with
  | nil => simp at h
  | cons e rest ih =>
    cases n with
    | zero => simp [arrSet]
    | succ m =>
      simp only [List.length_cons, Nat.succ_lt_succ_iff] at h
      simp [arrSet, ih m h]

theorem wfList_arrSet (es : List JsonValue) (n : Nat) (v : JsonValue)
    (hes : wfList es = true) (hv : wfJson v = true) : wfList (arrSet es n v) = true := by
  induction es generalizing n with
  | nil =>
    induction n with
    | zero => simp [arrSet, wfList, hv]
    | succ m ihm => simpa [arrSet, wfList, wfJson] using ihm
  | cons e rest ih =>
    simp only [wfList, Bool.and_eq_true] at hes
    cases n with
    | zero => simp [arrSet, wfList, hv, hes.2]
    | succ m => simp [arrSet, wfList, hes.1, ih m hes.2]

theorem wfList_get (es : List JsonValue) (n : Nat) (e : JsonValue)
    (hes : wfList es = true) (h : es.get? n = some e) : wfJson e = true := by
  induction es generalizing n with
  | nil => simp at h
  | cons e0 rest ih =>
    simp only [wfList, Bool.and_eq_true] at hes
    cases n with
    | zero =>
      simp only [List.get?] at h
      cases h
      exact hes.1
    | succ m => exact ih m hes.2 (by simpa using h)

theorem wfList_append (es fs : List JsonValue) :
    wfList (es ++ fs) = (wfList es && wfList fs) := by
  induction es with
  | nil => simp [wfList]
  | cons e rest ih => simp [wfList, ih, Bool.and_assoc]

/-! ## Characters, digits and decimal numerals -/

theorem char_toNat_ofNat (n : Nat) (h : n < 55296) : (Char.ofNat n).toNat = n := by
  have hv : n < 55296 ∨ 57343 < n ∧ n < 1114112 := Or.inl h
  simp only [Char.ofNat, Nat.isValidChar, dif_pos hv, Char.ofNatAux, Char.toNat]
  rfl

theorem char_ofNat_toNat (c : Char) : Char.ofNat c.toNat = c := by
  have hv : c.toNat < 55296 ∨ 57343 < c.toNat ∧ c.toNat < 1114112 := c.valid
  simp only [Char.ofNat, Nat.isValidChar, dif_pos hv, Char.ofNatAux]
  apply Char.ext
  apply UInt32.ext
  rfl

theorem char_eq_iff_toNat (c d : Char) : c = d ↔ c.toNat = d.toNat := by
  constructor
  · intro h; rw [h]
  · intro h
    have := congrArg Char.ofNat h
    rwa [char_ofNat_toNat, char_ofNat_toNat] at this

theorem natDigitChar_toNat (n : Nat) (h : n < 10) : (natDigitChar n).toNat = 48 + n := by
  rw [natDigitChar, Nat.mod_eq_of_lt h]
  exact char_toNat_ofNat _ (by omega)

theorem isDigitChar_natDigitChar (n : Nat) (h : n < 10) :
    isDigitChar (natDigitChar n) = true := by
  simp only [isDigitChar, natDigitChar_toNat n h]
  simp only [Bool.and_eq_true, decide_eq_true_eq]
  omega

theorem natToChars_ne_nil (n : Nat) : natToChars n ≠ [] := by
  rw [natToChars]
  by_cases h : n < 10
  · simp [h]
  · simp [h]

theorem natToChars_all_digits (n : Nat) : ∀ c ∈ natToChars n, isDigitChar c = true := by
  induction n using Nat.strong_induction_on with
  | _ n ih =>
    rw [natToChars]
    by_cases h : n < 10
    · simpa [h] using isDigitChar_natDigitChar n h
    · intro c hc
      simp only [dif_neg h, List.mem_append, List.mem_singleton] at hc
      rcases hc with hc | hc
      · exact ih (n / 10) (Nat.div_lt_self (by omega) (by omega)) c hc
      · exact hc ▸ isDigitChar_natDigitChar _ (Nat.mod_lt _ (by omega))

theorem natToChars_head_digit (n : Nat) :
    ∃ c t, natToChars n = c :: t ∧ isDigitChar c = true := by
  rcases hl : natToChars n with _ | ⟨c, t⟩
  · exact absurd hl (natToChars_ne_nil n)
  · exact ⟨c, t, rfl, natToChars_all_digits n c (by rw [hl]; simp)⟩

theorem natFromDigits_append_one (xs : List Char) (c : Char) :
    natFromDigits (xs ++ [c]) = 10 * natFromDigits xs + (c.toNat - 48) := by
  simp [natFromDigits, List.foldl_append]

theorem natFromDigits_natToChars (n : Nat) : natFromDigits (natToChars n) = n := by
  induction n using Nat.strong_induction_on with
  | _ n ih =>
    rw [natToChars]
    by_cases h : n < 10
    · simp [h, natFromDigits, natDigitChar_toNat n h]
    · rw [dif_neg h, natFromDigits_append_one,
        ih (n / 10) (Nat.div_lt_self (by omega) (by omega)),
        natDigitChar_toNat _ (Nat.mod_lt _ (by omega))]
      omega

theorem string_mk_inj (a b : List Char) (h : String.mk a = String.mk b) : a = b := by
  cases h; rfl

theorem natStr_inj (m n : Nat) (h : natStr m = natStr n) : m = n := by
  have h2 : natToChars m = natToChars n := string_mk_inj _ _ h
  have := congrArg natFromDigits h2
  rwa [natFromDigits_natToChars, natFromDigits_natToChars] at this

theorem canonIdx_natStr (n : Nat) : canonIdx (natStr n) = some n := by
  unfold canonIdx
  simp only [natStr, natFromDigits_natToChars]
  simp [natStr]

theorem segIdx_canonSeg (s : Seg) (n : Nat) (h : segIdx s = some n) :
    canonSeg s = natStr n := by
  cases s with
  | idx m =>
    simp only [segIdx, Option.some.injEq] at h
    simp [canonSeg, h]
  | key t =>
    simp only [segIdx, canonIdx] at h
    by_cases hc : natStr (natFromDigits t.data) = t
    · rw [if_pos hc] at h
      cases h
      simp [canonSeg, hc]
    · rw [if_neg hc] at h
      cases h

theorem canonSeg_segIdx (s : Seg) (n : Nat) (h : canonSeg s = natStr n) :
    segIdx s = some n := by
  cases s with
  | idx m =>
    simp only [canonSeg] at h
    rw [segIdx, natStr_inj m n h]
  | key t =>
    simp only [canonSeg] at h
    rw [segIdx, h, canonIdx_natStr]

/-! ## Whitespace and digit-run lemmas -/

theorem skipWs_nil : skipWs [] = [] := rfl

theorem skipWs_cons_not_ws (c : Char) (l : List Char) (h : isWsChar c = false) :
    skipWs (c :: l) = c :: l := by
  simp [skipWs, h]

theorem skipWs_append_ws (ws l : List Char) (h : ∀ c ∈ ws, isWsChar c = true) :
    skipWs (ws ++ l) = skipWs l := by
  induction ws with
  | nil => rfl
  | cons c cs ih =>
    simp only [List.cons_append, skipWs, h c (by simp), if_true]
    exact ih (fun d hd => h d (by simp [hd]))

theorem skipWs_replicate_space (n : Nat) (l : List Char) :
    skipWs (List.replicate n ' ' ++ l) = skipWs l :=
  skipWs_append_ws _ _ (by intro c hc; rw [List.eq_of_mem_replicate hc]; rfl)

/-- Heads that stop a digit run (or end of input). -/
def headNotDigit : List Char → Prop
  | [] => True
  | c :: _ => isDigitChar c = false

theorem spanDigits_append (ds rest : List Char) (hds : ∀ c ∈ ds, isDigitChar c = true)
    (hr : headNotDigit rest) : spanDigits (ds ++ rest) = (ds, rest) := by
  induction ds with
  | nil =>
    cases rest with
    | nil => rfl
    | cons c cs =>
      simp only [headNotDigit] at hr
      simp [spanDigits, hr]
  | cons c cs ih =>
    simp only [List.cons_append, spanDigits, hds c (by simp), if_true]
    have ih2 := ih (fun d hd => hds d (by simp [hd]))
    rw [show cs.append rest = cs ++ rest from rfl, ih2]

/-! ## String-literal round trip -/

theorem hexVal_hexDigitChar : ∀ d, d < 16 → hexVal (hexDigitChar d) = some d := by decide

theorem parseStrGo_escapeChar (c : Char) (acc tail : List Char) :
    parseStrGo acc (escapeChar c ++ tail) = parseStrGo (c :: acc) tail := by
  by_cases h1 : c = '"'
  · subst h1
    show parseStrGo acc ('\\' :: '"' :: tail) = _
    rw [parseStrGo.eq_def]; simp
  by_cases h2 : c = '\\'
  · subst h2
    show parseStrGo acc ('\\' :: '\\' :: tail) = _
    rw [parseStrGo.eq_def]; simp
  by_cases h3 : c = '\n'
  · subst h3
    show parseStrGo acc ('\\' :: 'n' :: tail) = _
    rw [parseStrGo.eq_def]; simp
  by_cases h4 : c = '\r'
  · subst h4
    show parseStrGo acc ('\\' :: 'r' :: tail) = _
    rw [parseStrGo.eq_def]; simp
  by_cases h5 : c = '\t'
  · subst h5
    show parseStrGo acc ('\\' :: 't' :: tail) = _
    rw [parseStrGo.eq_def]; simp
  by_cases h6 : c = Char.ofNat 8
  · subst h6
    show parseStrGo acc ('\\' :: 'b' :: tail) = _
    rw [parseStrGo.eq_def]; simp
  by_cases h7 : c = Char.ofNat 12
  · subst h7
    show parseStrGo acc ('\\' :: 'f' :: tail) = _
    rw [parseStrGo.eq_def]; simp
  by_cases h8 : c.toNat < 32
  · rw [escapeChar, if_neg h1, if_neg h2, if_neg h3, if_neg h4, if_neg h5, if_neg h6, if_neg h7,
      if_pos h8]
    have ha : hexVal (hexDigitChar (c.toNat / 16)) = some (c.toNat / 16) :=
      hexVal_hexDigitChar _ (by omega)
    have hb : hexVal (hexDigitChar (c.toNat % 16)) = some (c.toNat % 16) :=
      hexVal_hexDigitChar _ (by omega)
    have h0 : hexVal '0' = some 0 := by decide
    simp only [List.cons_append, List.nil_append]
    rw [parseStrGo.eq_def]
    simp [h0, ha, hb, Nat.div_add_mod, char_ofNat_toNat]
  · rw [escapeChar, if_neg h1, if_neg h2, if_neg h3, if_neg h4, if_neg h5, if_neg h6, if_neg h7,
      if_neg h8]
    simp only [List.cons_append, List.nil_append]
    rw [parseStrGo.eq_def]
    simp [h1, h2]

theorem parseStrGo_escape (l : List Char) : ∀ (acc rest : List Char),
    parseStrGo acc (escapeChars l ++ '"' :: rest) = some (String.mk (acc.reverse ++ l), rest) := by
  induction l with
  | nil =>
    intro acc rest
    show parseStrGo acc ('"' :: rest) = _
    rw [parseStrGo.eq_def]; simp
  | cons c l' ih =>
    intro acc rest
    show parseStrGo acc ((escapeChar c ++ escapeChars l') ++ '"' :: rest) = _
    rw [List.append_assoc, parseStrGo_escapeChar, ih]
    simp

/-! ## Printer shape lemmas -/

mutual
/-- Fuel adequate for parsing one printed value. -/
def jsize : JsonValue → Nat
  | .null => 1
  | .bool _ => 1
  | .num _ => 1
  | .str _ => 1
  | .arr es => 1 + jsizeL es
  | .obj fs => 1 + jsizeF fs

def jsizeL : List JsonValue → Nat
  | [] => 0
  | e :: es => 1 + jsize e + jsizeL es

def jsizeF : List (String × JsonValue) → Nat
  | [] => 0
  | f :: fs => 1 + jsize f.2 + jsizeF fs
end

theorem jsize_pos (v : JsonValue) : 1 ≤ jsize v := by
  cases v <;> simp [jsize]

theorem string_mk_data (s : String) : String.mk s.data = s := rfl

theorem isDigit_ne (c x : Char) (h : isDigitChar c = true) (hx : isDigitChar x = false) :
    c ≠ x := by
  intro e
  rw [e, hx] at h
  cases h

theorem digit_facts (c : Char) (h : isDigitChar c = true) :
    isWsChar c = false ∧ c ≠ ']' ∧ c ≠ rbrace ∧ c ≠ ',' := by
  have h' : 48 ≤ c.toNat ∧ c.toNat ≤ 57 := by simpa [isDigitChar] using h
  refine ⟨?_, ?_, ?_, ?_⟩
  · simp only [isWsChar, Bool.or_eq_false_iff, decide_eq_false_iff_not]
    refine ⟨⟨⟨?_, ?_⟩, ?_⟩, ?_⟩ <;>
      (intro e; rw [e] at h'; exact absurd h' (by decide))
  · intro e; rw [e] at h'; exact absurd h' (by decide)
  · intro e; rw [e] at h'; exact absurd h' (by decide)
  · intro e; rw [e] at h'; exact absurd h' (by decide)

/-- Every printed value starts with a non-whitespace character that is
not a closer or separator. -/
theorem printVal_head (ind : Nat) (v : JsonValue) :
    ∃ c t, printVal ind v = c :: t ∧ isWsChar c = false ∧ c ≠ ']' ∧ c ≠ rbrace ∧ c ≠ ',' := by
  cases v with
  | null => exact ⟨'n', _, rfl, by decide, by decide, by decide, by decide⟩
  | bool b => cases b with
    | true => exact ⟨'t', _, rfl, by decide, by decide, by decide, by decide⟩
    | false => exact ⟨'f', _, rfl, by decide, by decide, by decide, by decide⟩
  | num n =>
    cases n with
    | ofNat m =>
      obtain ⟨c, t, hct, hd⟩ := natToChars_head_digit m
      obtain ⟨h1, h2, h3, h4⟩ := digit_facts c hd
      exact ⟨c, t, by simp [printVal, intToChars, hct], h1, h2, h3, h4⟩
    | negSucc m =>
      exact ⟨'-', _, rfl, by decide, by decide, by decide, by decide⟩
  | str s => exact ⟨'"', _, rfl, by decide, by decide, by decide, by decide⟩
  | arr es => cases es with
    | nil => exact ⟨'[', _, rfl, by decide, by decide, by decide, by decide⟩
    | cons e es' => exact ⟨'[', _, rfl, by decide, by decide, by decide, by decide⟩
  | obj fs => cases fs with
    | nil => exact ⟨lbrace, _, rfl, by decide, by decide, by decide, by decide⟩
    | cons f fs' => exact ⟨lbrace, _, rfl, by decide, by decide, by decide, by decide⟩

/-! ## Printer-parser round trip -/

theorem wsOk_inner (n : Nat) : ∀ c ∈ '\n' :: List.replicate n ' ', isWsChar c = true := by
  intro c hc
  rcases List.mem_cons.mp hc with h | h
  · rw [h]; rfl
  · rw [List.eq_of_mem_replicate h]; rfl

theorem sizeOf_snd_le (p : String × JsonValue) : sizeOf p.2 ≤ sizeOf p := by
  obtain ⟨k, v⟩ := p
  simp_arith

theorem prod_sizeOf (p : String × JsonValue) :
    sizeOf p = 1 + sizeOf p.1 + sizeOf p.2 := by
  obtain ⟨k, v⟩ := p
  simp_arith

theorem keysDistinct_head_not_mem (acc : List (String × JsonValue))
    (f0 : String × JsonValue) (fs : List (String × JsonValue))
    (h : keysDistinct ((acc ++ f0 :: fs).map Prod.fst) = true) :
    f0.1 ∉ acc.map Prod.fst := by
  rw [keysDistinct_iff, List.map_append] at h
  have hd := (List.nodup_append.mp h).2.2
  intro hmem
  exact hd hmem (by simp)

mutual

theorem parseVal_print (v : JsonValue) (fuel ind : Nat) (ws rest : List Char)
    (hfuel : jsize v ≤ fuel) (hwf : wfJson v = true)
    (hws : ∀ c ∈ ws, isWsChar c = true) (hrest : headNotDigit rest) :
    parseVal fuel (ws ++ printVal ind v ++ rest) = some (v, rest) := by
  obtain ⟨G, rfl⟩ : ∃ G, fuel = G + 1 := ⟨fuel - 1, by have := jsize_pos v; omega⟩
  rw [parseVal]
  cases v with
  | null =>
    rw [show ws ++ printVal ind .null ++ rest = ws ++ ('n' :: 'u' :: 'l' :: 'l' :: rest) by
      simp [printVal]]
    rw [skipWs_append_ws _ _ hws, skipWs_cons_not_ws _ _ (by decide)]
    simp
  | bool b =>
    cases b with
    | true =>
      rw [show ws ++ printVal ind (.bool true) ++ rest
          = ws ++ ('t' :: 'r' :: 'u' :: 'e' :: rest) by simp [printVal]]
      rw [skipWs_append_ws _ _ hws, skipWs_cons_not_ws _ _ (by decide)]
      simp
    | false =>
      rw [show ws ++ printVal ind (.bool false) ++ rest
          = ws ++ ('f' :: 'a' :: 'l' :: 's' :: 'e' :: rest) by simp [printVal]]
      rw [skipWs_append_ws _ _ hws, skipWs_cons_not_ws _ _ (by decide)]
      simp
  | str s =>
    rw [show ws ++ printVal ind (.str s) ++ rest
        = ws ++ ('"' :: (escapeChars s.data ++ '"' :: rest)) by
      simp [printVal, quoteChars]]
    rw [skipWs_append_ws _ _ hws, skipWs_cons_not_ws _ _ (by decide)]
    simp [parseStrGo_escape, string_mk_data]
  | num n =>
    cases n with
    | ofNat m =>
      obtain ⟨c, t, hct, hd⟩ := natToChars_head_digit m
      obtain ⟨hw1, _, _, _⟩ := digit_facts c hd
      have hdigits : ∀ d ∈ c :: t, isDigitChar d = true := by
        rw [← hct]; exact natToChars_all_digits m
      have hspan : spanDigits (c :: (t ++ rest)) = (c :: t, rest) := by
        have := spanDigits_append (c :: t) rest hdigits hrest
        simpa using this
      rw [show ws ++ printVal ind (.num (Int.ofNat m)) ++ rest = ws ++ (c :: (t ++ rest)) by
        simp [printVal, intToChars, hct]]
      rw [skipWs_append_ws _ _ hws, skipWs_cons_not_ws _ _ hw1]
      have h1 : ¬ c = 'n' := isDigit_ne c 'n' hd (by decide)
      have h2 : ¬ c = 't' := isDigit_ne c 't' hd (by decide)
      have h3 : ¬ c = 'f' := isDigit_ne c 'f' hd (by decide)
      have h4 : ¬ c = '"' := isDigit_ne c '"' hd (by decide)
      have h5 : ¬ c = '-' := isDigit_ne c '-' hd (by decide)
      have hnum : natFromDigits (c :: t) = m := by rw [← hct, natFromDigits_natToChars]
      simp [h1, h2, h3, h4, h5, hd, hspan, hnum]
    | negSucc m =>
      obtain ⟨c, t, hct, _⟩ := natToChars_head_digit (m + 1)
      have hspan : spanDigits (natToChars (m + 1) ++ rest) = (c :: t, rest) := by
        rw [spanDigits_append _ _ (natToChars_all_digits _) hrest, hct]
      have hnum : natFromDigits (c :: t) = m + 1 := by rw [← hct, natFromDigits_natToChars]
      rw [show ws ++ printVal ind (.num (Int.negSucc m)) ++ rest
          = ws ++ ('-' :: (natToChars (m + 1) ++ rest)) by simp [printVal, intToChars]]
      rw [skipWs_append_ws _ _ hws, skipWs_cons_not_ws _ _ (by decide)]
      simp [hspan, hnum, Int.negSucc_eq]
  | arr es =>
    cases es with
    | nil =>
      rw [show ws ++ printVal ind (.arr []) ++ rest = ws ++ ('[' :: ']' :: rest) by
        simp [printVal]]
      rw [skipWs_append_ws _ _ hws, skipWs_cons_not_ws _ _ (by decide)]
      have d1 : isDigitChar '[' = false := by decide
      have d2 : isWsChar ']' = false := by decide
      simp [skipWs, d1, d2]
    | cons e es' =>
      simp only [jsize, jsizeL] at hfuel
      have hwf2 : wfJson e = true ∧ wfList es' = true := by
        have h0 : wfList (e :: es') = true := by simpa [wfJson] using hwf
        simpa [wfList, Bool.and_eq_true] using h0
      obtain ⟨c, t, hct, hc1, hc2, hc3, hc4⟩ := printVal_head (ind + 2) e
      rw [show ws ++ printVal ind (.arr (e :: es')) ++ rest
          = ws ++ ('[' :: (('\n' :: List.replicate (ind + 2) ' ') ++ printVal (ind + 2) e ++
              printItems (ind + 2) es' ++ '\n' :: (List.replicate ind ' ' ++ ']' :: rest))) by
        simp [printVal]]
      rw [skipWs_append_ws _ _ hws, skipWs_cons_not_ws _ _ (by decide)]
      have hskip : skipWs (('\n' :: List.replicate (ind + 2) ' ') ++ printVal (ind + 2) e ++
          printItems (ind + 2) es' ++ '\n' :: (List.replicate ind ' ' ++ ']' :: rest))
          = c :: (t ++ (printItems (ind + 2) es' ++
              '\n' :: (List.replicate ind ' ' ++ ']' :: rest))) := by
        rw [List.append_assoc, List.append_assoc, skipWs_append_ws _ _ (wsOk_inner _), hct,
          List.cons_append]
        exact skipWs_cons_not_ws _ _ hc1
      have d1 : isDigitChar '[' = false := by decide
      have HE := parseElems_print e es' [] G (ind + 2) ind
        ('\n' :: List.replicate (ind + 2) ' ') rest (by omega) hwf2.1 hwf2.2 (wsOk_inner _)
      simp only [hskip]
      simp [hc2, d1]
      simpa [List.append_assoc] using HE
  | obj fs =>
    cases fs with
    | nil =>
      rw [show ws ++ printVal ind (.obj []) ++ rest = ws ++ (lbrace :: rbrace :: rest) by
        simp [printVal]]
      rw [skipWs_append_ws _ _ hws, skipWs_cons_not_ws _ _ (by decide)]
      have e1 : ¬ lbrace = 'n' := by decide
      have e2 : ¬ lbrace = 't' := by decide
      have e3 : ¬ lbrace = 'f' := by decide
      have e4 : ¬ lbrace = '"' := by decide
      have e5 : ¬ lbrace = '-' := by decide
      have e6 : ¬ isDigitChar lbrace = true := by decide
      have e7 : ¬ lbrace = '[' := by decide
      have e8 : skipWs (rbrace :: rest) = rbrace :: rest :=
        skipWs_cons_not_ws _ _ (by decide)
      simp [e1, e2, e3, e4, e5, e6, e7, e8]
    | cons f0 fs' =>
      simp only [jsize, jsizeF] at hfuel
      have hkeys : keysDistinct ((([] : List (String × JsonValue)) ++ f0 :: fs').map
          Prod.fst) = true := by
        have h0 := hwf
        simp only [wfJson, Bool.and_eq_true] at h0
        simpa using h0.1
      have hwf2 : wfJson f0.2 = true ∧ wfFields fs' = true := by
        have h0 := hwf
        simp only [wfJson, Bool.and_eq_true] at h0
        have h2 := h0.2
        simpa [wfFields, Bool.and_eq_true] using h2
      rw [show ws ++ printVal ind (.obj (f0 :: fs')) ++ rest
          = ws ++ (lbrace :: (('\n' :: List.replicate (ind + 2) ' ') ++
              printField (ind + 2) f0 ++ printFields (ind + 2) fs' ++
              '\n' :: (List.replicate ind ' ' ++ rbrace :: rest))) by
        simp [printVal]]
      rw [skipWs_append_ws _ _ hws, skipWs_cons_not_ws _ _ (by decide)]
      have hskip : skipWs (('\n' :: List.replicate (ind + 2) ' ') ++
          printField (ind + 2) f0 ++ printFields (ind + 2) fs' ++
          '\n' :: (List.replicate ind ' ' ++ rbrace :: rest))
          = '"' :: (escapeChars f0.1.data ++ '"' :: (':' :: ' ' :: (printVal (ind + 2) f0.2 ++
              (printFields (ind + 2) fs' ++
                '\n' :: (List.replicate ind ' ' ++ rbrace :: rest))))) := by
        rw [List.append_assoc, List.append_assoc, skipWs_append_ws _ _ (wsOk_inner _)]
        rw [show printField (ind + 2) f0 ++ (printFields (ind + 2) fs' ++
            '\n' :: (List.replicate ind ' ' ++ rbrace :: rest))
            = '"' :: (escapeChars f0.1.data ++ '"' :: (':' :: ' ' :: (printVal (ind + 2) f0.2 ++
                (printFields (ind + 2) fs' ++
                  '\n' :: (List.replicate ind ' ' ++ rbrace :: rest)))))
            by simp [printField, quoteChars]]
        exact skipWs_cons_not_ws _ _ (by decide)
      have e1 : ¬ lbrace = 'n' := by decide
      have e2 : ¬ lbrace = 't' := by decide
      have e3 : ¬ lbrace = 'f' := by decide
      have e4 : ¬ lbrace = '"' := by decide
      have e5 : ¬ lbrace = '-' := by decide
      have e6 : ¬ isDigitChar lbrace = true := by decide
      have e7 : ¬ lbrace = '[' := by decide
      have e9 : ¬ ('"' : Char) = rbrace := by decide
      have HF := parseFields_print f0 fs' [] G (ind + 2) ind
        ('\n' :: List.replicate (ind + 2) ' ') rest (by omega) hwf2.1 hwf2.2 hkeys
        (wsOk_inner _)
      simp only [hskip]
      simp [e1, e2, e3, e4, e5, e6, e7, e9, parseStrGo_escape, string_mk_data]
      simpa [List.append_assoc] using HF
termination_by sizeOf v
decreasing_by all_goals ((try subst_vars); simp_arith [prod_sizeOf])

theorem parseElems_print (v0 : JsonValue) (es acc : List JsonValue) (G ind ind0x : Nat)
    (ws rest : List Char) (hfuel : 1 + jsize v0 + jsizeL es ≤ G)
    (hwf : wfJson v0 = true) (hes : wfList es = true)
    (hws : ∀ c ∈ ws, isWsChar c = true) :
    parseElems G acc (ws ++ printVal ind v0 ++ (printItems ind es ++
      '\n' :: (List.replicate ind0x ' ' ++ ']' :: rest))) = some (.arr (acc ++ v0 :: es), rest) := by
  obtain ⟨G', rfl⟩ : ∃ G', G = G' + 1 := ⟨G - 1, by omega⟩
  rw [parseElems]
  have hrest2 : headNotDigit (printItems ind es ++
      '\n' :: (List.replicate ind0x ' ' ++ ']' :: rest)) := by
    cases es with
    | nil => exact (by decide : isDigitChar '\n' = false)
    | cons e1 es2 => exact (by decide : isDigitChar ',' = false)
  have HV := parseVal_print v0 G' ind ws (printItems ind es ++
    '\n' :: (List.replicate ind0x ' ' ++ ']' :: rest)) (by omega) hwf hws hrest2
  rw [HV]
  cases es with
  | nil =>
    have hsk : skipWs (printItems ind ([] : List JsonValue) ++
        '\n' :: (List.replicate ind0x ' ' ++ ']' :: rest)) = ']' :: rest := by
      simp only [printItems, List.nil_append]
      rw [show ('\n' :: (List.replicate ind0x ' ' ++ ']' :: rest))
          = ('\n' :: List.replicate ind0x ' ') ++ ']' :: rest by simp]
      rw [skipWs_append_ws _ _ (wsOk_inner _), skipWs_cons_not_ws _ _ (by decide)]
    simp [hsk]
  | cons e1 es2 =>
    simp only [jsizeL] at hfuel
    have hes2 : wfJson e1 = true ∧ wfList es2 = true := by
      simpa [wfList, Bool.and_eq_true] using hes
    have hsk : skipWs (printItems ind (e1 :: es2) ++
        '\n' :: (List.replicate ind0x ' ' ++ ']' :: rest))
        = ',' :: ('\n' :: (List.replicate ind ' ' ++ (printVal ind e1 ++ (printItems ind es2 ++
            '\n' :: (List.replicate ind0x ' ' ++ ']' :: rest))))) := by
      rw [show printItems ind (e1 :: es2) ++
          '\n' :: (List.replicate ind0x ' ' ++ ']' :: rest)
          = ',' :: ('\n' :: (List.replicate ind ' ' ++ (printVal ind e1 ++ (printItems ind es2 ++
              '\n' :: (List.replicate ind0x ' ' ++ ']' :: rest))))) by simp [printItems]]
      exact skipWs_cons_not_ws _ _ (by decide)
    have HE := parseElems_print e1 es2 (acc ++ [v0]) G' ind ind0x
      ('\n' :: List.replicate ind ' ') rest (by omega) hes2.1 hes2.2 (wsOk_inner _)
    simp [hsk]
    simpa [List.append_assoc] using HE
termination_by 1 + sizeOf v0 + sizeOf es
decreasing_by all_goals ((try subst_vars); simp_arith [prod_sizeOf])

theorem parseFields_print (f0 : String × JsonValue) (fs acc : List (String × JsonValue))
    (G ind ind0x : Nat) (ws rest : List Char)
    (hfuel : 1 + jsize f0.2 + jsizeF fs ≤ G)
    (hwf : wfJson f0.2 = true) (hfs : wfFields fs = true)
    (hkeys : keysDistinct ((acc ++ f0 :: fs).map Prod.fst) = true)
    (hws : ∀ c ∈ ws, isWsChar c = true) :
    parseFields G acc (ws ++ printField ind f0 ++ (printFields ind fs ++
      '\n' :: (List.replicate ind0x ' ' ++ rbrace :: rest)))
      = some (.obj (acc ++ f0 :: fs), rest) := by
  obtain ⟨G', rfl⟩ : ∃ G', G = G' + 1 := ⟨G - 1, by omega⟩
  rw [parseFields]
  have hsk : skipWs (ws ++ printField ind f0 ++ (printFields ind fs ++
      '\n' :: (List.replicate ind0x ' ' ++ rbrace :: rest)))
      = '"' :: (escapeChars f0.1.data ++ '"' :: (':' :: ' ' :: (printVal ind f0.2 ++
          (printFields ind fs ++ '\n' :: (List.replicate ind0x ' ' ++ rbrace :: rest))))) := by
    rw [List.append_assoc, skipWs_append_ws _ _ hws]
    rw [show printField ind f0 ++ (printFields ind fs ++
        '\n' :: (List.replicate ind0x ' ' ++ rbrace :: rest))
        = '"' :: (escapeChars f0.1.data ++ '"' :: (':' :: ' ' :: (printVal ind f0.2 ++
            (printFields ind fs ++ '\n' :: (List.replicate ind0x ' ' ++ rbrace :: rest)))))
        by simp [printField, quoteChars]]
    exact skipWs_cons_not_ws _ _ (by decide)
  rw [hsk]
  have hPS := parseStrGo_escape f0.1.data [] (':' :: ' ' :: (printVal ind f0.2 ++
    (printFields ind fs ++ '\n' :: (List.replicate ind0x ' ' ++ rbrace :: rest))))
  have hrest2 : headNotDigit (printFields ind fs ++
      '\n' :: (List.replicate ind0x ' ' ++ rbrace :: rest)) := by
    cases fs with
    | nil => exact (by decide : isDigitChar '\n' = false)
    | cons f1 fs2 => exact (by decide : isDigitChar ',' = false)
  have HV := parseVal_print f0.2 G' ind [' '] (printFields ind fs ++
    '\n' :: (List.replicate ind0x ' ' ++ rbrace :: rest)) (by omega) hwf
    (by intro c hc; simp at hc; rw [hc]; rfl) hrest2
  simp only [List.singleton_append, List.cons_append, List.nil_append,
    List.append_assoc] at HV
  have hnotmem := keysDistinct_head_not_mem acc f0 fs hkeys
  have hins : objInsert acc f0.1 f0.2 = acc ++ [f0] := by
    rw [objInsert_of_not_mem _ _ _ hnotmem]
  cases fs with
  | nil =>
    have hsk3 : skipWs (printFields ind ([] : List (String × JsonValue)) ++
        '\n' :: (List.replicate ind0x ' ' ++ rbrace :: rest)) = rbrace :: rest := by
      simp only [printFields, List.nil_append]
      rw [show ('\n' :: (List.replicate ind0x ' ' ++ rbrace :: rest))
          = ('\n' :: List.replicate ind0x ' ') ++ rbrace :: rest by simp]
      rw [skipWs_append_ws _ _ (wsOk_inner _), skipWs_cons_not_ws _ _ (by decide)]
    have hcm : ¬ rbrace = ',' := by decide
    have hskc : skipWs (':' :: ' ' :: (printVal ind f0.2 ++
        (printFields ind ([] : List (String × JsonValue)) ++
        '\n' :: (List.replicate ind0x ' ' ++ rbrace :: rest))))
        = ':' :: ' ' :: (printVal ind f0.2 ++
        (printFields ind ([] : List (String × JsonValue)) ++
        '\n' :: (List.replicate ind0x ' ' ++ rbrace :: rest))) :=
      skipWs_cons_not_ws _ _ (by decide)
    simp [hPS, string_mk_data, hskc, HV, hsk3, hcm, hins]
  | cons f1 fs2 =>
    simp only [jsizeF] at hfuel
    have hfs2 : wfJson f1.2 = true ∧ wfFields fs2 = true := by
      simpa [wfFields, Bool.and_eq_true] using hfs
    have hsk3 : skipWs (printFields ind (f1 :: fs2) ++
        '\n' :: (List.replicate ind0x ' ' ++ rbrace :: rest))
        = ',' :: ('\n' :: (List.replicate ind ' ' ++ (printField ind f1 ++
            (printFields ind fs2 ++ '\n' :: (List.replicate ind0x ' ' ++ rbrace :: rest))))) := by
      rw [show printFields ind (f1 :: fs2) ++
          '\n' :: (List.replicate ind0x ' ' ++ rbrace :: rest)
          = ',' :: ('\n' :: (List.replicate ind ' ' ++ (printField ind f1 ++
              (printFields ind fs2 ++ '\n' :: (List.replicate ind0x ' ' ++ rbrace :: rest)))))
          by simp [printFields]]
      exact skipWs_cons_not_ws _ _ (by decide)
    have hkeys2 : keysDistinct (((acc ++ [f0]) ++ f1 :: fs2).map Prod.fst) = true := by
      simpa using hkeys
    have HF := parseFields_print f1 fs2 (acc ++ [f0]) G' ind ind0x
      ('\n' :: List.replicate ind ' ') rest (by omega) hfs2.1 hfs2.2 hkeys2 (wsOk_inner _)
    have hskc : skipWs (':' :: ' ' :: (printVal ind f0.2 ++ (printFields ind (f1 :: fs2) ++
        '\n' :: (List.replicate ind0x ' ' ++ rbrace :: rest))))
        = ':' :: ' ' :: (printVal ind f0.2 ++ (printFields ind (f1 :: fs2) ++
        '\n' :: (List.replicate ind0x ' ' ++ rbrace :: rest))) :=
      skipWs_cons_not_ws _ _ (by decide)
    simp [hPS, string_mk_data, hskc, HV, hsk3, hins]
    simpa [List.append_assoc] using HF
termination_by 1 + sizeOf f0 + sizeOf fs
decreasing_by all_goals ((try subst_vars); simp_arith [prod_sizeOf])

end


theorem natToChars_length_pos (n : Nat) : 1 ≤ (natToChars n).length := by
  rcases hl : natToChars n with _ | ⟨c, t⟩
  · exact absurd hl (natToChars_ne_nil n)
  · simp

mutual

theorem jsize_le_printVal (ind : Nat) (v : JsonValue) : jsize v ≤ (printVal ind v).length := by
  cases v with
  | null => simp [jsize, printVal]
  | bool b => cases b <;> simp [jsize, printVal]
  | num n =>
    cases n with
    | ofNat m =>
      have := natToChars_length_pos m
      simpa [jsize, printVal, intToChars] using this
    | negSucc m => simp [jsize, printVal, intToChars]
  | str s => simp [jsize, printVal, quoteChars]
  | arr es =>
    cases es with
    | nil => simp [jsize, jsizeL, printVal]
    | cons e es' =>
      have h1 := jsize_le_printVal (ind + 2) e
      have h2 := jsizeL_le_printItems (ind + 2) es'
      simp only [jsize, jsizeL, printVal, List.length_cons, List.length_append,
        List.length_replicate]
      omega
  | obj fs =>
    cases fs with
    | nil => simp [jsize, jsizeF, printVal]
    | cons f fs' =>
      have h1 := jsize_le_printVal (ind + 2) f.2
      have h2 := jsizeF_le_printFields (ind + 2) fs'
      simp only [jsize, jsizeF, printVal, printField, quoteChars, List.length_cons,
        List.length_append, List.length_replicate]
      omega
termination_by sizeOf v
decreasing_by all_goals ((try subst_vars); simp_arith [prod_sizeOf])

theorem jsizeL_le_printItems (ind : Nat) (es : List JsonValue) :
    jsizeL es ≤ (printItems ind es).length := by
  cases es with
  | nil => simp [jsizeL, printItems]
  | cons e es' =>
    have h1 := jsize_le_printVal ind e
    have h2 := jsizeL_le_printItems ind es'
    simp only [jsizeL, printItems, List.length_cons, List.length_append,
      List.length_replicate]
    omega
termination_by sizeOf es
decreasing_by all_goals ((try subst_vars); simp_arith [prod_sizeOf])

theorem jsizeF_le_printFields (ind : Nat) (fs : List (String × JsonValue)) :
    jsizeF fs ≤ (printFields ind fs).length := by
  cases fs with
  | nil => simp [jsizeF, printFields]
  | cons f fs' =>
    have h1 := jsize_le_printVal ind f.2
    have h2 := jsizeF_le_printFields ind fs'
    simp only [jsizeF, printFields, printField, quoteChars, List.length_cons,
      List.length_append, List.length_replicate]
    omega
termination_by sizeOf fs
decreasing_by all_goals ((try subst_vars); simp_arith [prod_sizeOf])

end

/-- The printer-parser round trip: `JSON.parse(JSON.stringify(v, null, 2))`
recovers any well-formed value. -/
theorem parseJson_stringifyJson (v : JsonValue) (hwf : wfJson v = true) :
    parseJson (stringifyJson v) = some v := by
  unfold parseJson stringifyJson
  have hlen : jsize v ≤ (printVal 0 v).length + 1 :=
    le_trans (jsize_le_printVal 0 v) (by omega)
  have H := parseVal_print v ((printVal 0 v).length + 1) 0 [] [] hlen hwf (by simp) trivial
  simp only [List.nil_append, List.append_nil] at H
  rw [show (String.mk (printVal 0 v)).data = printVal 0 v from rfl, H]
  simp [skipWs]

/-! ## The parser produces well-formed values -/

theorem wfList_snoc (acc : List JsonValue) (v0 : JsonValue) (h1 : wfList acc = true)
    (h2 : wfJson v0 = true) : wfList (acc ++ [v0]) = true := by
  rw [wfList_append]
  simp [wfList, h1, h2]

theorem wfArr_snoc (acc : List JsonValue) (v0 : JsonValue) (h1 : wfList acc = true)
    (h2 : wfJson v0 = true) : wfJson (.arr (acc ++ [v0])) = true := by
  show wfList (acc ++ [v0]) = true
  exact wfList_snoc _ _ h1 h2

theorem wfObj_insert (acc : List (String × JsonValue)) (k : String) (v1 : JsonValue)
    (h1 : keysDistinct (acc.map Prod.fst) = true) (h2 : wfFields acc = true)
    (h3 : wfJson v1 = true) : wfJson (.obj (objInsert acc k v1)) = true := by
  show (keysDistinct ((objInsert acc k v1).map Prod.fst) && wfFields (objInsert acc k v1))
      = true
  simp [keysDistinct_objInsert _ _ _ h1, wfFields_objInsert _ _ _ h2 h3]

theorem parse_wf_all (fuel : Nat) :
    (∀ l v r, parseVal fuel l = some (v, r) → wfJson v = true) ∧
    (∀ acc l v r, wfList acc = true → parseElems fuel acc l = some (v, r) → wfJson v = true) ∧
    (∀ acc l v r, keysDistinct (acc.map Prod.fst) = true → wfFields acc = true →
      parseFields fuel acc l = some (v, r) → wfJson v = true) := by
  induction fuel with
  | zero =>
    refine ⟨?_, ?_, ?_⟩
    · intro l v r h; simp [parseVal] at h
    · intro acc l v r _ h; simp [parseElems] at h
    · intro acc l v r _ _ h; simp [parseFields] at h
  | succ f ih =>
    obtain ⟨ih1, ih2, ih3⟩ := ih
    refine ⟨?_, ?_, ?_⟩
    · intro l v r h
      rw [parseVal] at h
      repeat' split at h
      all_goals injections
      all_goals subst_vars
      all_goals first
        | simp [wfJson, wfList, wfFields, keysDistinct]
        | exact ih2 [] _ _ _ rfl h
        | exact ih3 [] _ _ _ rfl rfl h
    · intro acc l v r hacc h
      rw [parseElems] at h
      repeat' split at h
      all_goals injections
      all_goals subst_vars
      all_goals first
        | exact wfArr_snoc _ _ hacc (ih1 _ _ _ (by assumption))
        | exact ih2 _ _ _ _ (wfList_snoc _ _ hacc (ih1 _ _ _ (by assumption))) h
    · intro acc l v r hkd hwfa h
      rw [parseFields] at h
      repeat' split at h
      all_goals injections
      all_goals subst_vars
      all_goals first
        | exact wfObj_insert _ _ _ hkd hwfa (ih1 _ _ _ (by assumption))
        | exact ih3 _ _ _ _ (keysDistinct_objInsert _ _ _ hkd)
            (wfFields_objInsert _ _ _ hwfa (ih1 _ _ _ (by assumption))) h

/-- `JSON.parse` only produces well-formed values. -/
theorem parseJson_wf (s : String) (v : JsonValue) (h : parseJson s = some v) :
    wfJson v = true := by
  unfold parseJson at h
  repeat' split at h
  all_goals injections
  all_goals subst_vars
  all_goals exact (parse_wf_all _).1 _ _ _ (by assumption)


/-! ## Path update: success condition, round trip and frame -/

/-- The final write target accepts the segment: any segment on an
object, an index-denoting segment on an array; primitives never. -/
def writeCompat : JsonValue → Seg → Bool
  | .obj _, _ => true
  | .arr _, seg => (segIdx seg).isSome
  | _, _ => false

/-- Structural member read (containers only). -/
def readMember (v : JsonValue) (s : Seg) : Option JsonValue :=
  match v with
  | .obj fs => objLookup fs (canonSeg s)
  | .arr es =>
    match segIdx s with
    | some n => arrGet es n
    | none => none
  | _ => none

/-- All intermediate segments resolve to existing containers, and the
final container accepts the final segment. -/
def goodPath : JsonValue → List Seg → Bool
  | _, [] => false
  | v, [s] => writeCompat v s
  | v, s :: rest =>
    match readMember v s with
    | some child => goodPath child rest
    | none => false

/-- The two key lists leave a common (possibly empty) prefix with two
different keys: the addressed locations are disjoint. -/
def divergeKeys : List String → List String → Bool
  | a :: as, b :: bs => if a = b then divergeKeys as bs else true
  | _, _ => false

theorem resolveP_none (q : List Seg) : resolveP none q = none := by
  cases q <;> simp [resolveP, jsRead]

theorem jsRead_of_readMember (v : JsonValue) (s : Seg) (c : JsonValue)
    (h : readMember v s = some c) : jsRead (some v) s = .ok (some c) := by
  cases v with
  | obj fs => simpa [readMember, jsRead] using h
  | arr es =>
    simp only [readMember] at h
    rcases hsi : segIdx s with _ | n <;> rw [hsi] at h
    · cases h
    · simpa [jsRead, hsi] using h
  | null => cases h
  | bool b => cases h
  | num n => cases h
  | str ss => cases h

theorem wfJson_member (v : JsonValue) (s : Seg) (c : JsonValue)
    (hwf : wfJson v = true) (h : readMember v s = some c) : wfJson c = true := by
  cases v with
  | obj fs =>
    simp only [wfJson, Bool.and_eq_true] at hwf
    exact wfFields_lookup _ _ _ hwf.2 h
  | arr es =>
    simp only [readMember] at h
    rcases hsi : segIdx s with _ | n <;> rw [hsi] at h
    · cases h
    · exact wfList_get _ _ _ (by simpa [wfJson] using hwf) h
  | null => cases h
  | bool b => cases h
  | num n => cases h
  | str ss => cases h


theorem arrGet_lt (es : List JsonValue) (m : Nat) (c : JsonValue)
    (h : arrGet es m = some c) : m < es.length := by
  by_contra hge
  rw [arrGet, List.get?_eq_none.mpr (by omega)] at h
  cases h

theorem arrSet_getElem_self (es : List JsonValue) (n : Nat) (v : JsonValue) :
    (arrSet es n v)[n]? = some v := by
  rw [← List.get?_eq_getElem?]
  exact arrSet_get_self es n v

/-- On a good path, the walk-and-assign succeeds, preserves
well-formedness, the assigned value reads back exactly, and every
member reachable through a diverging path keeps its value. -/
theorem setAt_good : ∀ (p : List Seg) (v nv : JsonValue),
    goodPath v p = true → wfJson v = true → wfJson nv = true →
    ∃ r, setAt (some v) p nv = .ok r ∧ wfJson r = true ∧
      resolveP (some r) p = some nv ∧
      ∀ q w, divergeKeys (p.map canonSeg) (q.map canonSeg) = true →
        resolveP (some v) q = some w → resolveP (some r) q = some w := by
  intro p
  induction p with
  | nil => intro v nv hgp _ _; simp [goodPath] at hgp
  | cons s rest ih =>
    intro v nv hgp hwf hnv
    cases rest with
    | nil =>
      cases v with
      | null => simp [goodPath, writeCompat] at hgp
      | bool b => simp [goodPath, writeCompat] at hgp
      | num n => simp [goodPath, writeCompat] at hgp
      | str ss => simp [goodPath, writeCompat] at hgp
      | obj fs =>
        refine ⟨.obj (objInsert fs (canonSeg s) nv), rfl, ?_, ?_, ?_⟩
        · simp only [wfJson, Bool.and_eq_true] at hwf
          exact wfObj_insert _ _ _ hwf.1 hwf.2 hnv
        · simp [resolveP, jsRead, objLookup_objInsert_self]
        · intro q w hdiv hres
          cases q with
          | nil => simp [divergeKeys] at hdiv
          | cons s' q' =>
            have hne : ¬ canonSeg s = canonSeg s' := by
              intro e
              simp [divergeKeys, e] at hdiv
            simp only [resolveP, jsRead] at hres ⊢
            rw [objLookup_objInsert_ne _ _ _ _ hne]
            exact hres
      | arr es =>
        obtain ⟨n, hn⟩ : ∃ n, segIdx s = some n := by
          simp only [goodPath, writeCompat] at hgp
          exact Option.isSome_iff_exists.mp hgp
        refine ⟨.arr (arrSet es n nv), ?_, ?_, ?_, ?_⟩
        · simp [setAt, jsWrite, hn]
        · show wfList (arrSet es n nv) = true
          exact wfList_arrSet _ _ _ (by simpa [wfJson] using hwf) hnv
        · simp [resolveP, jsRead, hn, arrGet, arrSet_get_self, arrSet_getElem_self]
        · intro q w hdiv hres
          cases q with
          | nil => simp [divergeKeys] at hdiv
          | cons s' q' =>
            have hne : ¬ canonSeg s = canonSeg s' := by
              intro e
              simp [divergeKeys, e] at hdiv
            simp only [resolveP, jsRead] at hres ⊢
            rcases hsi' : segIdx s' with _ | m
            · simp only [hsi'] at hres
              rw [resolveP_none] at hres
              cases hres
            · simp only [hsi'] at hres ⊢
              rcases hget : arrGet es m with _ | c
              · rw [hget] at hres
                rw [resolveP_none] at hres
                cases hres
              · rw [hget] at hres
                have hmn : m ≠ n := by
                  intro e
                  exact hne (by rw [segIdx_canonSeg s n hn, segIdx_canonSeg s' m hsi', e])
                have hm : m < es.length := arrGet_lt _ _ _ hget
                rw [show arrGet (arrSet es n nv) m = arrGet es m from arrSet_get_ne es n m nv hmn hm,
                  hget]
                exact hres
    | cons s2 rest2 =>
      obtain ⟨child, hrm, hgp2⟩ : ∃ child, readMember v s = some child ∧
          goodPath child (s2 :: rest2) = true := by
        simp only [goodPath] at hgp
        rcases hrm : readMember v s with _ | child <;> rw [hrm] at hgp
        · cases hgp
        · exact ⟨child, rfl, hgp⟩
      have hwfc := wfJson_member v s child hwf hrm
      obtain ⟨rc, hsetc, hwfrc, hresrc, hframec⟩ := ih child nv hgp2 hwfc hnv
      have hread := jsRead_of_readMember v s child hrm
      cases v with
      | null => simp [readMember] at hrm
      | bool b => simp [readMember] at hrm
      | num n => simp [readMember] at hrm
      | str ss => simp [readMember] at hrm
      | obj fs =>
        have hLk : objLookup fs (canonSeg s) = some child := hrm
        refine ⟨.obj (objInsert fs (canonSeg s) rc), ?_, ?_, ?_, ?_⟩
        · simp [setAt, bind, Except.bind, hread, hsetc, jsWrite]
        · simp only [wfJson, Bool.and_eq_true] at hwf
          exact wfObj_insert _ _ _ hwf.1 hwf.2 hwfrc
        · rw [resolveP, show jsRead (some (JsonValue.obj (objInsert fs (canonSeg s) rc))) s
              = Except.ok (some rc) by simp [jsRead, objLookup_objInsert_self]]
          exact hresrc
        · intro q w hdiv hres
          cases q with
          | nil => simp [divergeKeys] at hdiv
          | cons s' q' =>
            by_cases hceq : canonSeg s = canonSeg s'
            · have hdiv2 : divergeKeys ((s2 :: rest2).map canonSeg) (q'.map canonSeg)
                  = true := by
                simpa [divergeKeys, hceq] using hdiv
              simp only [resolveP, jsRead] at hres ⊢
              rw [← hceq] at hres ⊢
              rw [objLookup_objInsert_self]
              rw [hLk] at hres
              exact hframec q' w hdiv2 hres
            · simp only [resolveP, jsRead] at hres ⊢
              rw [objLookup_objInsert_ne _ _ _ _ hceq]
              exact hres
      | arr es =>
        obtain ⟨n, hn, hget⟩ : ∃ n, segIdx s = some n ∧ arrGet es n = some child := by
          simp only [readMember] at hrm
          rcases hsi : segIdx s with _ | n <;> rw [hsi] at hrm
          · cases hrm
          · exact ⟨n, rfl, hrm⟩
        have hlen : n < es.length := arrGet_lt _ _ _ hget
        refine ⟨.arr (arrSet es n rc), ?_, ?_, ?_, ?_⟩
        · simp [setAt, bind, Except.bind, hread, hsetc, jsWrite, hn]
        · show wfList (arrSet es n rc) = true
          exact wfList_arrSet _ _ _ (by simpa [wfJson] using hwf) hwfrc
        · rw [resolveP, show jsRead (some (JsonValue.arr (arrSet es n rc))) s
              = Except.ok (some rc) by simp [jsRead, hn, arrGet, arrSet_getElem_self]]
          exact hresrc
        · intro q w hdiv hres
          cases q with
          | nil => simp [divergeKeys] at hdiv
          | cons s' q' =>
            by_cases hceq : canonSeg s = canonSeg s'
            · have hdiv2 : divergeKeys ((s2 :: rest2).map canonSeg) (q'.map canonSeg)
                  = true := by
                simpa [divergeKeys, hceq] using hdiv
              have hsi' : segIdx s' = some n :=
                canonSeg_segIdx s' n (by rw [← hceq, segIdx_canonSeg s n hn])
              simp only [resolveP, jsRead, hsi', hn] at hres ⊢
              rw [show arrGet (arrSet es n rc) n = some rc from arrSet_get_self es n rc]
              rw [hget] at hres
              exact hframec q' w hdiv2 hres
            · simp only [resolveP, jsRead] at hres ⊢
              rcases hsi' : segIdx s' with _ | m
              · simp only [hsi'] at hres
                rw [resolveP_none] at hres
                cases hres
              · simp only [hsi'] at hres ⊢
                rcases hget' : arrGet es m with _ | c
                · rw [hget'] at hres
                  rw [resolveP_none] at hres
                  cases hres
                · rw [hget'] at hres
                  have hmn : m ≠ n := by
                    intro e
                    exact hceq (by rw [segIdx_canonSeg s n hn, segIdx_canonSeg s' m hsi', e])
                  have hm : m < es.length := arrGet_lt _ _ _ hget'
                  rw [show arrGet (arrSet es n rc) m = arrGet es m from
                    arrSet_get_ne es n m rc hmn hm, hget']
                  exact hres



/-! ## Merge-back lemmas -/

theorem mergeRow_ok (pc : JsonValue) (row row' : Row)
    (h : mergeRow pc row = .ok row') :
    row'.key = row.key ∧ row'.type = row.type ∧
    (truthyKey row.key = false → row'.value = row.value) ∧
    (∀ k, row.key = some k → k.isEmpty = false →
      ∀ m, jsRead (some pc) (.key k) = .ok m → row'.value = m.getD row.value) := by
  rcases hk : row.key with _ | k
  · simp only [mergeRow, hk] at h
    injection h with h
    subst h
    refine ⟨hk, rfl, fun _ => rfl, ?_⟩
    intro k hk2
    cases hk2
  · by_cases he : k.isEmpty = true
    · simp only [mergeRow, hk] at h
      rw [if_pos he] at h
      injection h with h
      subst h
      refine ⟨hk, rfl, fun _ => rfl, ?_⟩
      intro k' hk' hke
      injection hk' with hkk
      subst hkk
      rw [he] at hke
      cases hke
    · have he' : k.isEmpty = false := by revert he; cases k.isEmpty <;> simp
      simp only [mergeRow, hk] at h
      rw [if_neg he] at h
      rcases hm : jsRead (some pc) (.key k) with e | m
      · simp [hm, bind, Except.bind] at h
      · simp only [bind, Except.bind, hm] at h
        injection h with h
        subst h
        refine ⟨rfl, rfl, ?_, ?_⟩
        · intro ht
          simp [truthyKey, he'] at ht
        · intro k' hk' _ m' hm'
          injection hk' with hkk
          subst hkk
          rw [hm] at hm'
          injection hm' with hmm
          subst hmm
          rfl

theorem mergeText_spec (pc : JsonValue) : ∀ (rows merged : List Row),
    mergeText pc rows = .ok merged →
    List.Forall₂ (fun old new : Row =>
      new.key = old.key ∧ new.type = old.type ∧
      (truthyKey old.key = false → new.value = old.value) ∧
      (∀ k, old.key = some k → k.isEmpty = false →
        ∀ m, jsRead (some pc) (.key k) = .ok m → new.value = m.getD old.value))
      rows merged := by
  intro rows
  induction rows with
  | nil =>
    intro merged h
    simp only [mergeText] at h
    injection h with h
    subst h
    exact List.Forall₂.nil
  | cons r rs ih =>
    intro merged h
    simp only [mergeText] at h
    rcases hr : mergeRow pc r with e | r'
    · simp [hr, bind, Except.bind] at h
    · rcases hrest : mergeText pc rs with e | rest'
      · simp [hr, hrest, bind, Except.bind] at h
      · simp only [hr, hrest, bind, Except.bind] at h
        injection h with h
        subst h
        exact List.Forall₂.cons (mergeRow_ok pc r r' hr) (ih rest' hrest)

/-! ## `buildObj` membership lemmas -/

theorem objInsert_mem (fs : List (String × JsonValue)) (k : String) (v : JsonValue)
    (kv : String × JsonValue) (h : kv ∈ objInsert fs k v) : kv ∈ fs ∨ kv = (k, v) := by
  induction fs with
  | nil => simpa [objInsert] using h
  | cons f rest ih =>
    obtain ⟨k0, v0⟩ := f
    by_cases he : k0 = k
    · simp only [objInsert, if_pos he] at h
      rcases List.mem_cons.mp h with h1 | h1
      · subst he; exact Or.inr h1
      · exact Or.inl (List.mem_cons_of_mem _ h1)
    · simp only [objInsert, if_neg he] at h
      rcases List.mem_cons.mp h with h1 | h1
      · exact Or.inl (h1 ▸ List.mem_cons_self _ _)
      · rcases ih h1 with h2 | h2
        · exact Or.inl (List.mem_cons_of_mem _ h2)
        · exact Or.inr h2

theorem objInsert_self_mem (fs : List (String × JsonValue)) (k : String) (v : JsonValue) :
    ∃ w, (k, w) ∈ objInsert fs k v := by
  induction fs with
  | nil => exact ⟨v, by simp [objInsert]⟩
  | cons f rest ih =>
    obtain ⟨k0, v0⟩ := f
    by_cases he : k0 = k
    · subst he
      exact ⟨v, by simp [objInsert]⟩
    · obtain ⟨w, hw⟩ := ih
      exact ⟨w, by simp only [objInsert, if_neg he]; exact List.mem_cons_of_mem _ hw⟩

theorem objInsert_key_mem (fs : List (String × JsonValue)) (k0 : String) (v0 : JsonValue)
    (k : String) (h : ∃ v, (k, v) ∈ fs) : ∃ v, (k, v) ∈ objInsert fs k0 v0 := by
  induction fs with
  | nil => simp at h
  | cons f rest ih =>
    obtain ⟨k1, v1⟩ := f
    obtain ⟨v, hv⟩ := h
    by_cases he : k1 = k0
    · rcases List.mem_cons.mp hv with h1 | h1
      · injection h1 with h1k h1v
        subst h1k
        exact ⟨v0, by simp [objInsert, if_pos he]⟩
      · exact ⟨v, by simp only [objInsert, if_pos he]; exact List.mem_cons_of_mem _ h1⟩
    · rcases List.mem_cons.mp hv with h1 | h1
      · exact ⟨v, by simp only [objInsert, if_neg he]; exact h1 ▸ List.mem_cons_self _ _⟩
      · obtain ⟨w, hw⟩ := ih ⟨v, h1⟩
        exact ⟨w, by simp only [objInsert, if_neg he]; exact List.mem_cons_of_mem _ hw⟩

theorem buildStep_cases (acc : List (String × JsonValue)) (r : Row) :
    buildStep acc r = acc ∨
    ∃ k, r.type = RowType.scalar ∧ r.key = some k ∧ k.isEmpty = false ∧
      buildStep acc r = objInsert acc k r.value := by
  rcases ht : r.type with _ | _ | _
  · rcases hk : r.key with _ | k
    · exact Or.inl (by simp [buildStep, ht, hk])
    · by_cases he : k.isEmpty = true
      · exact Or.inl (by simp [buildStep, ht, hk, he])
      · have he' : k.isEmpty = false := by revert he; cases k.isEmpty <;> simp
        exact Or.inr ⟨k, rfl, rfl, he', by simp [buildStep, ht, hk, he']⟩
  · exact Or.inl (by simp [buildStep, ht])
  · exact Or.inl (by simp [buildStep, ht])

theorem foldl_buildStep_mem : ∀ (rows : List Row) (acc : List (String × JsonValue))
    (kv : String × JsonValue), kv ∈ rows.foldl buildStep acc →
    kv ∈ acc ∨ ∃ r ∈ rows, r.type = RowType.scalar ∧ r.key = some kv.1 ∧
      kv.1.isEmpty = false ∧ r.value = kv.2 := by
  intro rows
  induction rows with
  | nil => intro acc kv h; exact Or.inl (by simpa using h)
  | cons r rs ih =>
    intro acc kv h
    rw [List.foldl_cons] at h
    rcases ih (buildStep acc r) kv h with hmem | ⟨r', hr', hrest⟩
    · rcases buildStep_cases acc r with he | ⟨k, ht, hk, hke, he⟩
      · rw [he] at hmem
        exact Or.inl hmem
      · rw [he] at hmem
        rcases objInsert_mem acc k r.value kv hmem with h1 | h1
        · exact Or.inl h1
        · subst h1
          exact Or.inr ⟨r, List.mem_cons_self _ _, ht, hk, hke, rfl⟩
    · exact Or.inr ⟨r', List.mem_cons_of_mem _ hr', hrest⟩

theorem foldl_buildStep_key_mono : ∀ (rows : List Row) (acc : List (String × JsonValue))
    (k : String), (∃ v, (k, v) ∈ acc) → ∃ v, (k, v) ∈ rows.foldl buildStep acc := by
  intro rows
  induction rows with
  | nil => intro acc k h; simpa using h
  | cons r rs ih =>
    intro acc k h
    rw [List.foldl_cons]
    rcases buildStep_cases acc r with he | ⟨k0, _, _, _, he⟩
    · exact ih _ k (by rw [he]; exact h)
    · exact ih _ k (by rw [he]; exact objInsert_key_mem acc k0 r.value k h)

theorem foldl_buildStep_key_covered : ∀ (rows : List Row) (acc : List (String × JsonValue))
    (r : Row) (k : String), r ∈ rows → r.type = RowType.scalar → r.key = some k →
    k.isEmpty = false → ∃ v, (k, v) ∈ rows.foldl buildStep acc := by
  intro rows
  induction rows with
  | nil => intro acc r k h; cases h
  | cons r0 rs ih =>
    intro acc r k hmem ht hk hke
    rw [List.foldl_cons]
    rcases List.mem_cons.mp hmem with he | hmem'
    · subst he
      have hstep : buildStep acc r = objInsert acc k r.value := by
        simp [buildStep, ht, hk, hke]
      rw [hstep]
      exact foldl_buildStep_key_mono rs _ k (objInsert_self_mem acc k r.value)
    · exact ih _ r k hmem' ht hk hke



/-! ## The claims -/

theorem natToChars_digit (n : Nat) (h : n < 10) : natToChars n = [natDigitChar n] := by
  rw [natToChars]
  simp [h]

/-- C1: the spec requires a path-resolution error when an intermediate
segment does not resolve to an existing container.  On the spec's own
example document and path, the source's `updateJsonAtPath` internally
faults (the `try` body throws) but the `catch` swallows it and the
function silently returns the input document: no error reaches the
caller. -/
theorem C1_silent_path_failure :
    parseJson "\x7b\"a\":1\x7d" = some (.obj [("a", .num 1)]) ∧
    tryUpdate "\x7b\"a\":1\x7d" (some [Seg.key "x", Seg.key "y"]) (.num 1) = .error () ∧
    updateJsonAtPath "\x7b\"a\":1\x7d" (some [Seg.key "x", Seg.key "y"]) (.num 1)
      = "\x7b\"a\":1\x7d" :=
  ⟨rfl, rfl, rfl⟩

/-- C2 counterexample: the claim says a row with no key takes the whole
parsed draft value.  In the source, `row.key && ...` is falsy for a
keyless row, so the row keeps its previous value: saving draft `true`
over a root-scalar node holding `5` updates the document to `"true"`
but leaves the row's value at `5`. -/
theorem C2_counterexample :
    parseJson "true" = some (.bool true) ∧
    (handleSave (AppState.mk "5"
        (GraphState.mk [NodeData.mk "n" none [Row.mk none (.num 5) RowType.scalar]]
          (some (NodeData.mk "n" none [Row.mk none (.num 5) RowType.scalar])))
        true "true")).json = "true" ∧
    ((handleSave (AppState.mk "5"
        (GraphState.mk [NodeData.mk "n" none [Row.mk none (.num 5) RowType.scalar]]
          (some (NodeData.mk "n" none [Row.mk none (.num 5) RowType.scalar])))
        true "true")).graph.selectedNode.map (fun nd => nd.text.map Row.value))
      = some [JsonValue.num 5] ∧
    JsonValue.num 5 ≠ JsonValue.bool true :=
  ⟨rfl, rfl, rfl, fun h => JsonValue.noConfusion h⟩

/-- C2 (amended): after a successful save, the merge-back keeps every
row's key and type; a row's value is replaced exactly when its key is
truthy and the member read of that key on the parsed draft is defined
(`m.getD old.value` is the draft's member when defined), irrespective of
the row's type tag; rows with a falsy key (absent or empty) keep their
previous value — they do not take the whole parsed draft value. -/
theorem C2_merge_back (st : AppState) (nd : NodeData) (pc : JsonValue) (merged : List Row)
    (hsel : st.graph.selectedNode = some nd)
    (hparse : parseJson st.editedContent = some pc)
    (hmerge : mergeText pc nd.text = .ok merged) :
    (handleSave st).graph.selectedNode = some { nd with text := merged } ∧
    (handleSave st).isEditing = false ∧
    List.Forall₂ (fun old new : Row =>
      new.key = old.key ∧ new.type = old.type ∧
      (truthyKey old.key = false → new.value = old.value) ∧
      (∀ k, old.key = some k → k.isEmpty = false →
        ∀ m, jsRead (some pc) (.key k) = .ok m → new.value = m.getD old.value))
      nd.text merged := by
  refine ⟨?_, ?_, mergeText_spec pc nd.text merged hmerge⟩
  · simp [handleSave, hsel, hparse, hmerge]
  · simp [handleSave, hsel, hparse, hmerge]

/-- C2 witness: saving draft `{"a":2}` over a node with one scalar row
keyed `a` replaces that row's value. -/
theorem C2_merge_back_witness :
    (handleSave (AppState.mk "\x7b\"a\":1\x7d"
        (GraphState.mk [NodeData.mk "n" (some []) [Row.mk (some "a") (.num 1) RowType.scalar]]
          (some (NodeData.mk "n" (some []) [Row.mk (some "a") (.num 1) RowType.scalar])))
        true "\x7b\"a\":2\x7d")).graph.selectedNode
      = some (NodeData.mk "n" (some []) [Row.mk (some "a") (.num 2) RowType.scalar]) :=
  (C2_merge_back
    (AppState.mk "\x7b\"a\":1\x7d"
      (GraphState.mk [NodeData.mk "n" (some []) [Row.mk (some "a") (.num 1) RowType.scalar]]
        (some (NodeData.mk "n" (some []) [Row.mk (some "a") (.num 1) RowType.scalar])))
      true "\x7b\"a\":2\x7d")
    (NodeData.mk "n" (some []) [Row.mk (some "a") (.num 1) RowType.scalar])
    (.obj [("a", .num 2)]) [Row.mk (some "a") (.num 2) RowType.scalar]
    rfl rfl rfl).1

/-- C3: when the document text does not parse as JSON, `updateJsonAtPath`
returns it unchanged and no exception reaches the caller (internally the
`try` body threw, which the second conjunct records). -/
theorem C3_parse_failure_noop (json : String) (path : Option (List Seg))
    (newValue : JsonValue) (h : parseJson json = none) :
    updateJsonAtPath json path newValue = json ∧
    tryUpdate json path newValue = .error () := by
  constructor
  · simp [updateJsonAtPath, tryUpdate, h]
  · simp [tryUpdate, h]

/-- C3 witness: the spec's own example `patch('not json', ["a"], 1)`. -/
theorem C3_parse_failure_noop_witness :
    parseJson "not json" = none ∧
    updateJsonAtPath "not json" (some [Seg.key "a"]) (.num 1) = "not json" :=
  ⟨rfl, (C3_parse_failure_noop "not json" (some [Seg.key "a"]) (.num 1) rfl).1⟩

/-- C4: when the draft does not parse, `handleSave` returns the state
identically — both stores unchanged and still editing, as the claim
asks — but the source reports no error to the caller (it only
`console.error`s): the state-to-state function is silent about the
failure, which is exactly what the claim forbids. -/
theorem C4_parse_failure_silent (st : AppState) (nd : NodeData)
    (hsel : st.graph.selectedNode = some nd)
    (hparse : parseJson st.editedContent = none) :
    handleSave st = st := by
  simp [handleSave, hsel, hparse]

/-- C4 witness: saving the invalid draft `not json` changes nothing. -/
theorem C4_parse_failure_silent_witness :
    handleSave (AppState.mk "1" (GraphState.mk [] (some (NodeData.mk "n" none [])))
        true "not json")
      = AppState.mk "1" (GraphState.mk [] (some (NodeData.mk "n" none [])))
        true "not json" :=
  C4_parse_failure_silent _ _ rfl rfl

/-- C5 counterexample: for the single keyless row holding the string
value `hi`, the source renders the JavaScript coercion `String(value)`,
not raw JSON: the result `hi` (unquoted) does not parse back at all, so
parsing the result does not yield the row's value. -/
theorem C5_counterexample :
    normalizeNodeData (some [Row.mk none (.str "hi") RowType.scalar]) = "hi" ∧
    parseJson (normalizeNodeData (some [Row.mk none (.str "hi") RowType.scalar])) = none :=
  ⟨rfl, rfl⟩

/-- C5 (amended): for a single row with a falsy key, `normalizeNodeData`
returns the JavaScript string coercion of the row's value (a template
literal, not `JSON.stringify`); that coincides with raw JSON — and so
parses back to the value — exactly for numbers, booleans and null, not
for strings, arrays or objects. -/
theorem C5_keyless_row (r : Row) (h : truthyKey r.key = false) :
    normalizeNodeData (some [r]) = jsToString r.value ∧
    (∀ n : Int, r.value = .num n → parseJson (normalizeNodeData (some [r])) = some r.value) ∧
    (∀ b : Bool, r.value = .bool b → parseJson (normalizeNodeData (some [r])) = some r.value) ∧
    (r.value = .null → parseJson (normalizeNodeData (some [r])) = some r.value) := by
  have h1 : normalizeNodeData (some [r]) = jsToString r.value := by
    simp [normalizeNodeData, h]
  refine ⟨h1, ?_, ?_, ?_⟩
  · intro n hn
    rw [h1, hn]
    exact parseJson_stringifyJson (.num n) rfl
  · intro b hb
    rw [h1, hb]
    cases b
    · exact parseJson_stringifyJson (.bool false) rfl
    · exact parseJson_stringifyJson (.bool true) rfl
  · intro hn
    rw [h1, hn]
    exact parseJson_stringifyJson .null rfl

/-- C5 witness: the spec's example `normalize([{value:5}]) === "5"`,
which parses back to `5`. -/
theorem C5_keyless_row_witness :
    normalizeNodeData (some [Row.mk none (.num 5) RowType.scalar]) = "5" ∧
    parseJson (normalizeNodeData (some [Row.mk none (.num 5) RowType.scalar]))
      = some (.num 5) := by
  have h1 := (C5_keyless_row (Row.mk none (.num 5) RowType.scalar) rfl).1
  have h2 := (C5_keyless_row (Row.mk none (.num 5) RowType.scalar) rfl).2.1 5 rfl
  have h5 : jsToString ((Row.mk none (.num 5) RowType.scalar).value) = "5" := by
    show String.mk (natToChars 5) = "5"
    rw [natToChars_digit 5 (by decide)]
    rfl
  exact ⟨h1.trans h5, h2⟩

/-- C6 counterexample: the claim asks only that the intermediate
segments resolve to containers, nothing of the final write target.  On
document `5` with path `["x"]` there are no intermediate segments, yet
the write to the root scalar throws, the `catch` returns the document
unchanged, and re-resolving the path yields nothing — not the patched
value `7`. -/
theorem C6_counterexample :
    updateJsonAtPath "5" (some [Seg.key "x"]) (.num 7) = "5" ∧
    parseJson "5" = some (.num 5) ∧
    resolveP (some (JsonValue.num 5)) [Seg.key "x"] = none ∧
    (none : Option JsonValue) ≠ some (JsonValue.num 7) :=
  ⟨rfl, rfl, rfl, fun h => Option.noConfusion h⟩

/-- C6 (amended): for a parsed document, a well-formed replacement value
and a path that is good for the document — every intermediate segment
resolves to an existing container and the final container accepts the
final segment — the patch succeeds, re-parsing the patched text and
re-resolving the path yields exactly the new value, and every location
addressed by a key list diverging from the path's keeps its old value. -/
theorem C6_roundtrip (doc : String) (root : JsonValue) (p : List Seg) (nv : JsonValue)
    (hdoc : parseJson doc = some root) (hnv : wfJson nv = true)
    (hgp : goodPath root p = true) :
    ∃ r, setAt (some root) p nv = .ok r ∧
      updateJsonAtPath doc (some p) nv = stringifyJson r ∧
      parseJson (updateJsonAtPath doc (some p) nv) = some r ∧
      resolveP (some r) p = some nv ∧
      (∀ q w, divergeKeys (p.map canonSeg) (q.map canonSeg) = true →
        resolveP (some root) q = some w → resolveP (some r) q = some w) := by
  have hwf : wfJson root = true := parseJson_wf doc root hdoc
  obtain ⟨r, hset, hwfr, hres, hframe⟩ := setAt_good p root nv hgp hwf hnv
  have hupd : updateJsonAtPath doc (some p) nv = stringifyJson r := by
    cases p with
    | nil => simp [goodPath] at hgp
    | cons s rest =>
      simp [updateJsonAtPath, tryUpdate, hdoc, hset, bind, Except.bind]
  refine ⟨r, hset, hupd, ?_, hres, hframe⟩
  rw [hupd]
  exact parseJson_stringifyJson r hwfr

/-- C6 witness: the spec's example, patching `{"a":{"b":1},"c":true}` at
`["a","b"]` with `5`. -/
theorem C6_roundtrip_witness :
    ∃ r, setAt (some (JsonValue.obj
          [("a", JsonValue.obj [("b", JsonValue.num 1)]), ("c", JsonValue.bool true)]))
        [Seg.key "a", Seg.key "b"] (JsonValue.num 5) = .ok r ∧
      updateJsonAtPath "\x7b\"a\":\x7b\"b\":1\x7d,\"c\":true\x7d"
        (some [Seg.key "a", Seg.key "b"]) (JsonValue.num 5) = stringifyJson r ∧
      parseJson (updateJsonAtPath "\x7b\"a\":\x7b\"b\":1\x7d,\"c\":true\x7d"
        (some [Seg.key "a", Seg.key "b"]) (JsonValue.num 5)) = some r ∧
      resolveP (some r) [Seg.key "a", Seg.key "b"] = some (JsonValue.num 5) ∧
      (∀ q w, divergeKeys ([Seg.key "a", Seg.key "b"].map canonSeg) (q.map canonSeg) = true →
        resolveP (some (JsonValue.obj
          [("a", JsonValue.obj [("b", JsonValue.num 1)]), ("c", JsonValue.bool true)])) q
            = some w →
        resolveP (some r) q = some w) :=
  C6_roundtrip "\x7b\"a\":\x7b\"b\":1\x7d,\"c\":true\x7d"
    (JsonValue.obj [("a", JsonValue.obj [("b", JsonValue.num 1)]), ("c", JsonValue.bool true)])
    [Seg.key "a", Seg.key "b"] (JsonValue.num 5) rfl rfl rfl

/-- C7: an absent or empty row list normalizes to the empty object text;
any other row list outside the single-falsy-key case normalizes to the
two-space-indented serialization of the accumulated mapping, whose every
entry comes from a scalar row with that truthy key and value, and which
covers the key of every scalar row with a truthy key (rows of type array
or object never contribute). -/
theorem C7_normalize :
    normalizeNodeData none = "\x7b\x7d" ∧
    normalizeNodeData (some []) = "\x7b\x7d" ∧
    ∀ rows : List Row, (¬ ∃ r, rows = [r] ∧ truthyKey r.key = false) →
      normalizeNodeData (some rows) = stringifyJson (.obj (buildObj rows)) ∧
      (∀ kv ∈ buildObj rows, ∃ r ∈ rows, r.type = RowType.scalar ∧ r.key = some kv.1 ∧
        kv.1.isEmpty = false ∧ r.value = kv.2) ∧
      (∀ r ∈ rows, r.type = RowType.scalar → ∀ k, r.key = some k → k.isEmpty = false →
        ∃ v, (k, v) ∈ buildObj rows) := by
  refine ⟨rfl, rfl, ?_⟩
  intro rows hno
  refine ⟨?_, ?_, ?_⟩
  · rcases rows with _ | ⟨r1, _ | ⟨r2, rest⟩⟩
    · rfl
    · have ht : truthyKey r1.key = true := by
        cases h : truthyKey r1.key
        · exact absurd ⟨r1, rfl, h⟩ hno
        · rfl
      simp [normalizeNodeData, ht]
    · rfl
  · intro kv hkv
    rcases foldl_buildStep_mem rows [] kv hkv with h | h
    · cases h
    · exact h
  · intro r hr ht k hk hke
    exact foldl_buildStep_key_covered rows [] r k hr ht hk hke

/-- C8 counterexample: with no node selected, `handleEdit` is not a
no-op: the source has no null guard, so it still switches to editing
(and seeds the draft from an empty row list). -/
theorem C8_counterexample :
    (handleEdit (AppState.mk "1" (GraphState.mk [] none) false "x")).isEditing = true ∧
    (AppState.mk "1" (GraphState.mk [] none) false "x").isEditing = false ∧
    handleEdit (AppState.mk "1" (GraphState.mk [] none) false "x")
      ≠ AppState.mk "1" (GraphState.mk [] none) false "x" :=
  ⟨rfl, rfl, fun h => absurd (congrArg AppState.isEditing h) (by decide)⟩

/-- C8 (amended): `handleEdit` unconditionally transitions to editing and
never touches the stores; with a selected node it seeds the draft with
the normalization of that node's rows, and with none selected it still
acts, seeding the draft with the normalization of the empty row list. -/
theorem C8_handleEdit (st : AppState) :
    (handleEdit st).isEditing = true ∧
    (handleEdit st).json = st.json ∧
    (handleEdit st).graph = st.graph ∧
    (st.graph.selectedNode = none →
      (handleEdit st).editedContent = normalizeNodeData (some [])) ∧
    (∀ nd, st.graph.selectedNode = some nd →
      (handleEdit st).editedContent = normalizeNodeData (some nd.text)) := by
  refine ⟨rfl, rfl, rfl, ?_, ?_⟩
  · intro h
    simp [handleEdit, h]
  · intro nd h
    simp [handleEdit, h]

/-- C9: cancelling after beginning an edit leaves the document store and
the graph store byte-for-byte unchanged — the composite only resets the
editing flag and clears the draft — and `handleCancel` alone never
mutates either store. -/
theorem C9_cancel_frame (st : AppState) :
    handleCancel (handleEdit st) = { st with isEditing := false, editedContent := "" } ∧
    (handleCancel st).json = st.json ∧
    (handleCancel st).graph = st.graph ∧
    (handleCancel st).isEditing = false ∧
    (handleCancel st).editedContent = "" :=
  ⟨rfl, rfl, rfl, rfl, rfl⟩

/-- C10: `updateJsonAtPath` is total by construction — for every input it
either returns the successfully patched text or, when the `try` body
faults in any way, returns the original input string from the `catch`. -/
theorem C10_total (json : String) (path : Option (List Seg)) (newValue : JsonValue) :
    (∃ t, tryUpdate json path newValue = .ok t ∧ updateJsonAtPath json path newValue = t) ∨
    (tryUpdate json path newValue = .error () ∧ updateJsonAtPath json path newValue = json) := by
  cases h : tryUpdate json path newValue with
  | error e =>
    right
    cases e
    exact ⟨rfl, by simp [updateJsonAtPath, h]⟩
  | ok t =>
    left
    exact ⟨t, rfl, by simp [updateJsonAtPath, h]⟩

end JsonCrack
